import Mathlib

/-!
Verification development for the `cli_from_jsdoc` repository.

We shallowly embed the two core subsystems:

* the argument binder `parseArgv` from `src/parseArgv.mjs` (target selection,
  required-parameter binding, optional-keyword table, optional-value scanning,
  value coercion `getValue`, final assembly), and
* the export-graph resolver `parse` from `src/parse.mjs` (construct walk,
  recursive re-export resolution, collision filter `getExportFilter`,
  source lookup `getSource`, documentation matching `getExportDocGetter`).

JavaScript runtime values are modelled by `JVal`, thrown errors by `JErr`.
Mutation of the caller's `args` array is modelled by returning the final
state of the array alongside the result.  File reads are modelled by a
write-only log of file paths (the multiset of reads of a successful run).
Recursion through the module graph uses explicit fuel.
-/

namespace CliFromJsdoc

/-- Model of a JavaScript runtime value as far as the binder produces them.
`undef` is JavaScript `undefined`, `jnull` is `null`.  Numbers are modelled
exactly as rationals (the decimal arithmetic the code performs on them is
exact for every value any claim touches; binary64 rounding is not modelled). -/
inductive JVal where
  | undefVal : JVal
  | jnull : JVal
  | bool (b : Bool) : JVal
  | num (q : Rat) : JVal
  | str (s : String) : JVal
  | arr (xs : List JVal) : JVal
  | obj (fields : List (String × JVal)) : JVal

/-- Errors thrown by the embedded code.  Constructors carry the data that the
corresponding `new Error(...)` message interpolates (where a claim cares
about it).  `typeError` models a JavaScript TypeError such as reading a
property of `undefined`; `outOfFuel` is the artifact of fuel-bounded
recursion and is unreachable with sufficient fuel. -/
inductive JErr where
  | invalidCommand (args : List String) : JErr
  | typeError (what : String) : JErr
  | invalidBoolean (s : String) : JErr
  | invalidNumber (s : String) : JErr
  | ambiguousArguments : JErr
  | unknownArgument (leading : String) : JErr
  | missingArguments (named : String) : JErr
  | jsonError : JErr
  | fileNotFound (f : String) : JErr
  | exportNotFound (name file : String) : JErr
  | outOfFuel : JErr
  | nonTermination : JErr
  deriving Repr, DecidableEq

/-- JavaScript truthiness of a `JVal` (`!v` in the source negates this). -/
def JVal.truthy : JVal → Bool
  | .undefVal => false
  | .jnull => false
  | .bool b => b
  | .num q => q ≠ 0
  | .str s => s ≠ ""
  | .arr _ => true
  | .obj _ => true

/-!
String operations are modelled structurally over the character list (the
core library's `String` primitives are not definitionally reducible), so
that concrete runs evaluate inside the kernel.
-/

/-- `s.includes(c)` on a single character. -/
def strContains (s : String) (c : Char) : Bool :=
  s.toList.contains c

/-- `s.startsWith(pre)`. -/
def strStartsWith (s pre : String) : Bool :=
  pre.toList.isPrefixOf s.toList

/-- `s.endsWith(suf)`. -/
def strEndsWith (s suf : String) : Bool :=
  suf.toList.isSuffixOf s.toList

/-- ASCII `toLowerCase` (option names and type strings are ASCII). -/
def charLower (c : Char) : Char :=
  if 65 ≤ c.toNat ∧ c.toNat ≤ 90 then Char.ofNat (c.toNat + 32) else c

/-- `s.toLowerCase()`. -/
def strToLower (s : String) : String :=
  String.mk (s.toList.map charLower)

/-- Splitting on one separator character; `"".split(c)` is `[""]`. -/
def splitCharAux (c : Char) : List Char → List Char → List String
  | [], acc => [String.mk acc.reverse]
  | x :: xs, acc =>
    if x = c then String.mk acc.reverse :: splitCharAux c xs []
    else splitCharAux c xs (x :: acc)

/-- `s.split(c)` for a one-character separator. -/
def strSplit (s : String) (c : Char) : List String :=
  splitCharAux c s.toList []

/-- `s.slice(0, n)`. -/
def strTake (s : String) (n : Nat) : String :=
  String.mk (s.toList.take n)

/-- `s.slice(n)`. -/
def strDrop (s : String) (n : Nat) : String :=
  String.mk (s.toList.drop n)

/-- `s.slice(0, -n)`. -/
def strDropRight (s : String) (n : Nat) : String :=
  String.mk (s.toList.take (s.toList.length - n))

/-- `xs.join(sep)`. -/
def strIntercalate (sep : String) : List String → String
  | [] => ""
  | [x] => x
  | x :: xs => x ++ sep ++ strIntercalate sep xs

/-- Index of the first occurrence of a character. -/
def idxOfCharAux (c : Char) : List Char → Nat → Option Nat
  | [], _ => none
  | x :: xs, i => if x = c then some i else idxOfCharAux c xs (i + 1)

/-- `s.indexOf(c)` as an optional index. -/
def idxOfChar (cs : List Char) (c : Char) : Option Nat :=
  idxOfCharAux c cs 0

/-- `while (s.startsWith('-')) s = s.slice(1)` from `getValue`'s boolean
branch: strip every leading `-`. -/
def stripLeadingDashes (s : String) : String :=
  String.mk (s.toList.dropWhile (fun c => c = '-'))

/-- Digits-only decimal parse helper: `some n` when the character list is
nonempty and all decimal digits. -/
def parseDigits : List Char → Option Nat
  | [] => none
  | cs =>
    if cs.all Char.isDigit then
      some (cs.foldl (fun acc c => acc * 10 + (c.toNat - 48)) 0)
    else none

/-- Model of the builtin `Number(s)` restricted to the forms the binder can
meet in a claim: optional sign followed by decimal digits, and the empty /
all-whitespace string (which is `0`).  Everything else is NaN (`none`). -/
def jsNumber (s : String) : Option Rat :=
  let cs := s.toList.dropWhile (fun c => c = ' ') |>.reverse.dropWhile (fun c => c = ' ') |>.reverse
  match cs with
  | [] => some 0
  | '-' :: rest => (parseDigits rest).map (fun n => -(n : Rat))
  | '+' :: rest => (parseDigits rest).map (fun n => (n : Rat))
  | _ => (parseDigits cs).map (fun n => (n : Rat))

/-- Model of the builtin `parseFloat(s)` restricted to plain decimal
literals `[sign] digits [. digits]`; everything else is NaN (`none`).
Decimal values are represented exactly. -/
def jsParseFloat (s : String) : Option Rat :=
  let cs := s.toList.dropWhile (fun c => c = ' ')
  let core := fun (l : List Char) =>
    match l.span Char.isDigit with
    | (intPart, rest) =>
      match rest with
      | '.' :: fracPart =>
        if intPart = [] then none
        else if fracPart.all Char.isDigit ∧ fracPart ≠ [] then
          (parseDigits intPart).bind fun i =>
            (parseDigits fracPart).map fun f =>
              (i : Rat) + (f : Rat) / ((10 : Rat) ^ fracPart.length)
        else (parseDigits intPart).map (fun n => (n : Rat))
      | _ => (parseDigits intPart).map (fun n => (n : Rat))
  match cs with
  | '-' :: rest => (core rest).map (fun q => -q)
  | '+' :: rest => core rest
  | _ => core cs

/-- Whitespace skipping for the JSON model. -/
def jsonSkipWs (cs : List Char) : List Char :=
  cs.dropWhile (fun c => c = ' ')

mutual

/-- Minimal model of the builtin `JSON.parse` value grammar: literals,
unsigned integers, escape-free strings, arrays and objects.  `getValue`
reaches it only through bracket-delimited array text and `object`-typed
text; no claim depends on its details. -/
def jsonValue : Nat → List Char → Option (JVal × List Char)
  | 0, _ => none
  | fuel+1, cs =>
    match jsonSkipWs cs with
    | 't' :: 'r' :: 'u' :: 'e' :: rest => some (.bool true, rest)
    | 'f' :: 'a' :: 'l' :: 's' :: 'e' :: rest => some (.bool false, rest)
    | 'n' :: 'u' :: 'l' :: 'l' :: rest => some (.jnull, rest)
    | '"' :: rest =>
      match rest.span (fun c => c ≠ '"') with
      | (strPart, '"' :: rest2) => some (.str (String.mk strPart), rest2)
      | _ => none
    | '[' :: rest =>
      (match jsonSkipWs rest with
       | ']' :: rest2 => some (.arr [], rest2)
       | rest2 => (jsonItems fuel rest2).map (fun p => (.arr p.1, p.2)))
    | '{' :: rest =>
      (match jsonSkipWs rest with
       | '}' :: rest2 => some (.obj [], rest2)
       | rest2 => (jsonFields fuel rest2).map (fun p => (.obj p.1, p.2)))
    | '-' :: rest =>
      match rest.span Char.isDigit with
      | (ds, rest2) => (parseDigits ds).map (fun n => (.num (-(n : Rat)), rest2))
    | other =>
      match other.span Char.isDigit with
      | (ds, rest2) => (parseDigits ds).map (fun n => (.num (n : Rat), rest2))

/-- Comma-separated JSON array items after `[`. -/
def jsonItems : Nat → List Char → Option (List JVal × List Char)
  | 0, _ => none
  | fuel+1, cs =>
    (jsonValue fuel cs).bind fun (v, rest) =>
      match jsonSkipWs rest with
      | ',' :: rest2 => (jsonItems fuel rest2).map (fun p => (v :: p.1, p.2))
      | ']' :: rest2 => some ([v], rest2)
      | _ => none

/-- Comma-separated JSON object fields after the opening brace. -/
def jsonFields : Nat → List Char → Option (List (String × JVal) × List Char)
  | 0, _ => none
  | fuel+1, cs =>
    match jsonSkipWs cs with
    | '"' :: rest =>
      (match rest.span (fun c => c ≠ '"') with
       | (keyPart, '"' :: rest2) =>
         (match jsonSkipWs rest2 with
          | ':' :: rest3 =>
            (jsonValue fuel rest3).bind fun (v, rest4) =>
              (match jsonSkipWs rest4 with
               | ',' :: rest5 =>
                 (jsonFields fuel rest5).map
                   (fun p => ((String.mk keyPart, v) :: p.1, p.2))
               | '}' :: rest5 => some ([(String.mk keyPart, v)], rest5)
               | _ => none)
          | _ => none)
       | _ => none)
    | _ => none

end

/-- `JSON.parse(s)`: parse a complete value, rejecting trailing garbage. -/
def jsonParse (s : String) : Except JErr JVal :=
  match jsonValue (2 * s.length + 4) s.toList with
  | some (v, rest) =>
    if jsonSkipWs rest = [] then .ok v else .error .jsonError
  | none => .error .jsonError

/-- `getValue(valueString, option)` (lines 118-146 of `src/parseArgv.mjs`),
fuel-bounded because the array branch recurses on the element type.
`valueString` is `none` when the call receives JavaScript `undefined`
(an `args.shift()` on an exhausted array); invoking a string method on it
then raises a TypeError, while `String(undefined)` is `"undefined"` and the
final identity branch returns `undefined` itself. -/
def getValueFuel : Nat → Option String → String → Except JErr JVal
  | 0, _, _ => .error .outOfFuel
  | fuel+1, valueString, ty =>
    if ty = "boolean" then
      match valueString with
      | none => .error (.typeError "includes")
      | some s =>
        if strContains s '-' then
          .ok (.bool (!strStartsWith (stripLeadingDashes s) "no-"))
        else
          if s = "false" ∨ s = "0" ∨ strStartsWith (strToLower s) "n" then .ok (.bool false)
          else if s = "true" ∨ s = "1" ∨ strStartsWith (strToLower s) "y" then .ok (.bool true)
          else .error (.invalidBoolean s)
    else if ty = "number" then
      match valueString with
      | none => .error (.typeError "includes")
      | some s =>
        match (if strContains s '.' then jsParseFloat s else jsNumber s) with
        | none => .error (.invalidNumber s)
        | some q => .ok (.num q)
    else if ty = "string" then
      .ok (.str (match valueString with | none => "undefined" | some s => s))
    else if strEndsWith ty "[]" ∨ strStartsWith (strToLower ty) "array<" then
      match valueString with
      | none => .error (.typeError "startsWith")
      | some s =>
        if strStartsWith s "[" ∧ strEndsWith s "]" then jsonParse s
        else
          let elemTy := if strEndsWith ty "[]" then strDropRight ty 2 else strDropRight (strDrop ty 6) 1
          ((strSplit s ',').mapM (fun piece => getValueFuel fuel (some piece) elemTy)).map .arr
    else if ty = "object" then
      match valueString with
      | none => .ok (.obj [])
      | some s => if s = "" then .ok (.obj []) else jsonParse s
    else
      .ok (match valueString with | none => .undefVal | some s => .str s)

/-- `getValue` with enough fuel for any chain of array element types. -/
def getValue (valueString : Option String) (ty : String) : Except JErr JVal :=
  getValueFuel (ty.length + 1) valueString ty

/-- One parsed documentation tag (the `comment-parser` output shape
restricted to the fields the core reads): tag kind (`"param"` for
parameters), dotted name, declared type string, optionality, optional
default text. -/
structure Tag where
  tag : String
  name : String
  type : String
  optional : Bool
  default : Option String := none
  deriving Repr, DecidableEq

/-- A parsed documentation block: leading description plus ordered tags. -/
structure Doc where
  description : String
  tags : List Tag
  deriving Repr, DecidableEq

/-- `Source` from `src/parse.mjs`: defining file, local name there, and the
byte offset of the defining declaration. -/
structure Source where
  file : String
  name : String
  position : Nat
  deriving Repr, DecidableEq

/-- `Export` from `src/parse.mjs`: one externally visible binding.  `doc` is
`none` until (and unless) documentation matching attaches a block. -/
structure Export where
  name : String
  source : Source
  doc : Option Doc := none
  deriving Repr, DecidableEq

/-- `CLI` from `src/parse.mjs`: the resolved descriptor for one entry
module. -/
structure CLI where
  name : String
  file : String
  exports : List Export
  deriving Repr, DecidableEq

/-- Line 30 of `parseArgv`:
`cli.exports.length >= 1 ? cli.exports[0] : cli.exports.find(e => e.name === args[0])`.
The condition is `>= 1`, so any nonempty export list yields its first entry;
the name lookup only runs on an empty list (where it returns nothing). -/
def selectProgram (exports : List Export) (args : List String) : Option Export :=
  if exports.length ≥ 1 then exports.head?
  else
    match args.head? with
    | some a => exports.find? (fun e => e.name = a)
    | none => none

/-- The `|R| > 1` required-parameter loop (lines 43-46): one `args.shift()`
and one `getValue` per parameter in order; a thrown coercion error stops the
loop with the tokens consumed so far (including the failing one) removed. -/
def bindRequiredMulti : List Tag → List String → (Except JErr (List JVal)) × List String
  | [], args => (.ok [], args)
  | p :: ps, args =>
    match getValue args.head? p.type with
    | .error e => (.error e, args.tail)
    | .ok v =>
      match bindRequiredMulti ps args.tail with
      | (.ok vs, rest2) => (.ok (v :: vs), rest2)
      | (.error e, rest2) => (.error e, rest2)

/-- Candidate keywords for one optional parameter (lines 53-54):
`--name`, `-name`, `-first letter`, plus `--no-name`/`-no-name` for
boolean-typed parameters. -/
def optionKeywords (option : Tag) : List String :=
  let kws := ["--" ++ option.name, "-" ++ option.name, "-" ++ strTake option.name 1]
  if option.type = "boolean" then kws ++ ["--no-" ++ option.name, "-no-" ++ option.name]
  else kws

/-- JavaScript object property lookup for the keyword table, where a later
assignment to the same key overwrites an earlier one. -/
def lastAssoc (m : List (String × Tag)) (k : String) : Option Tag :=
  (m.reverse.find? (fun p => p.1 = k)).map Prod.snd

/-- Lines 60-63: every keyword that occurs more than once in the table is
removed from it entirely. -/
def dedupKeywords (kws : List String) : List String :=
  kws.filter (fun kw => kws.count kw = 1)

/-- Line 66: a bound required value triggers `AmbiguousArguments` when it is
a string starting with a surviving keyword (values without a `startsWith`
method make the optional call yield `undefined`, which is falsy). -/
def ambiguousHit (parsed : List JVal) (keywords : List String) : Bool :=
  parsed.any fun v =>
    match v with
    | .str s => keywords.any (fun k => strStartsWith s k)
    | _ => false

/-- Stable insertion for the descending-length keyword sort. -/
def insertByLen (kw : String) : List String → List String
  | [] => [kw]
  | k :: ks => if k.length < kw.length then kw :: k :: ks else k :: insertByLen kw ks

/-- Line 73's `keywords.sort((a, b) => b.length - a.length)`: stable sort by
descending length, so among equal-length keywords the original (table)
order is kept. -/
def sortByLenDesc (l : List String) : List String :=
  l.foldl (fun acc kw => insertByLen kw acc) []

/-- Regex-literal match of one keyword against the head of the input: a `.`
inside a keyword comes from a dotted option name and, being interpolated
into the pattern unescaped, matches any input character.  Returns the input
text actually matched (the capture group's value). -/
def kwMatch : List Char → List Char → Option (List Char)
  | [], _ => some []
  | _ :: _, [] => none
  | p :: ps, c :: cs =>
    if p = '.' ∨ p = c then (kwMatch ps cs).map (fun m => c :: m)
    else none

/-- First alternative of the keyword pattern matching at the head. -/
def firstKwMatch (kws : List String) (cs : List Char) : Option (List Char) :=
  match kws with
  | [] => none
  | k :: rest =>
    match kwMatch k.toList cs with
    | some m => some m
    | none => firstKwMatch rest cs

/-- Fuel-bounded body of the `matchAll` scan; every step consumes at least
one character, so fuel exceeding the text length never runs out. -/
def scanMatchesF (kws : List String) : Nat → Nat → List Char → List (Nat × List Char)
  | 0, _, _ => []
  | fuel+1, pos, padded =>
    match padded with
    | [] => []
    | c :: cs =>
      if c = ' ' then
        match firstKwMatch kws cs with
        | some m => (pos, m) :: scanMatchesF kws fuel (pos + 1 + m.length) (cs.drop m.length)
        | none => scanMatchesF kws fuel (pos + 1) cs
      else scanMatchesF kws fuel (pos + 1) cs

/-- `matchAll` of the pattern built at line 73 (a space followed by one of
the length-sorted keywords) over the space-padded argument string:
successive non-overlapping matches scanning left to right, alternatives
tried in pattern order at each position.  Yields the match position (of the
space, in the padded string) and the group's matched text. -/
def scanMatches (kws : List String) (pos : Nat) (padded : List Char) :
    List (Nat × List Char) :=
  scanMatchesF kws (padded.length + 1) pos padded

/-- Property read on the option object; a missing key is `undefined`. -/
def objGet (o : List (String × JVal)) (k : String) : JVal :=
  match o.find? (fun p => p.1 = k) with
  | some p => p.2
  | none => .undefVal

/-- Property write on the option object (replace in place or append). -/
def objSet (o : List (String × JVal)) (k : String) (v : JVal) :
    List (String × JVal) :=
  match o with
  | [] => [(k, v)]
  | (k2, v2) :: rest => if k2 = k then (k, v) :: rest else (k2, v2) :: objSet rest k v

/-- `getContext` (lines 154-164) combined with the assignment at lines
86-94: walk the dotted key path, replacing missing or falsy intermediate
values by fresh objects, then assign the coerced value — or, for
array-typed parameters, append to the existing array (`ctx[key] = []` first
when the slot is falsy).  Spreading a non-array value, pushing onto a
truthy non-array slot, and assigning through a truthy non-object
intermediate value all raise TypeErrors (the last is an approximation for
array intermediates, reachable only through conflicting dotted names that
no claim involves). -/
def setPath (isArray : Bool) (value : JVal) :
    List String → List (String × JVal) → Except JErr (List (String × JVal))
  | [], o => .ok o
  | [k], o =>
    if isArray then
      match objGet o k with
      | .arr existing =>
        match value with
        | .arr vs => .ok (objSet o k (.arr (existing ++ vs)))
        | _ => .error (.typeError "spread")
      | prev =>
        if prev.truthy then .error (.typeError "push")
        else
          match value with
          | .arr vs => .ok (objSet o k (.arr vs))
          | _ => .error (.typeError "spread")
    else .ok (objSet o k value)
  | k :: k2 :: rest, o =>
    let child := objGet o k
    if child.truthy then
      match child with
      | .obj fields =>
        match setPath isArray value (k2 :: rest) fields with
        | .ok newChild => .ok (objSet o k (.obj newChild))
        | .error e => .error e
      | _ => .error (.typeError "assign")
    else
      match setPath isArray value (k2 :: rest) [] with
      | .ok newChild => .ok (objSet o k (.obj newChild))
      | .error e => .error e

/-- The option-processing loop (lines 79-95): for each match, slice the raw
value text (from the keyword up to the next match), coerce it, and write it
into the option object at the dotted path.  A matched text absent from the
keyword table (possible only via dot-wildcard matches) makes `option.name`
raise a TypeError. -/
def processMatches (optionMap : List (String × Tag)) (argChars : List Char) :
    List (Nat × List Char) → List (String × JVal) →
    Except JErr (List (String × JVal))
  | [], o => .ok o
  | (idx, mtext) :: rest, o =>
    let stop := match rest.head? with
      | some (idx2, _) => idx2
      | none => argChars.length
    let optionString := (argChars.drop idx).take (stop - idx)
    let valueString :=
      match idxOfChar optionString ' ' with
      | some i => String.mk (optionString.drop (i + 1))
      | none => String.mk optionString
    match lastAssoc optionMap (String.mk mtext) with
    | none => .error (.typeError "name")
    | some option =>
      match getValue (some valueString) option.type with
      | .error e => .error e
      | .ok value =>
        let isArr := strEndsWith option.type "[]" ∨ strStartsWith (strToLower option.type) "array<"
        let key0 := ((strSplit option.name ' ').headD option.name)
        match setPath isArr value (strSplit key0 '.') o with
        | .error e => .error e
        | .ok o2 => processMatches optionMap argChars rest o2

/-- Whether a value is JavaScript `undefined`. -/
def JVal.isUndefined : JVal → Bool
  | .undefVal => true
  | _ => false

/-- The trailing trim at line 104:
`while (typeof parsed[parsed.length - 1] === 'undefined') parsed.pop()`.
`[].pop()` is a no-op and `parsed[-1]` stays `undefined`, so the loop never
exits once the array is (or becomes) empty; `none` models that
non-termination.  Otherwise the result is the list up to its last defined
entry. -/
def jsTrimTrailingUndef (l : List JVal) : Option (List JVal) :=
  let r := (l.reverse.dropWhile JVal.isUndefined).reverse
  if r.isEmpty then none else some r

/-- `parseArgv(cli, args)` (lines 28-110 of `src/parseArgv.mjs`).  The
second component is the final state of the caller's `args` array, which the
code mutates through `shift`.  The `.nonTermination` error is not a thrown
JavaScript error but the marker for the infinite trim loop (see
`jsTrimTrailingUndef`). -/
def parseArgv (cli : CLI) (args : List String) :
    (Except JErr (List JVal)) × List String :=
  match selectProgram cli.exports args with
  | none => (.error (.invalidCommand args), args)
  | some program =>
    let args1 := if cli.exports.length > 1 then args.tail else args
    match program.doc with
    | none => (.error (.typeError "tags"), args1)
    | some doc =>
      let params := doc.tags.filter (fun t => t.tag == "param" && t.optional == false)
      let step : (Except JErr (List JVal)) × List String :=
        match params with
        | [p] =>
          let firstParam := args1.takeWhile (fun a => !strStartsWith a "-")
          let rest := args1.dropWhile (fun a => !strStartsWith a "-")
          ((getValue (some (strIntercalate " " firstParam)) p.type).map
            (fun v => [v]), rest)
        | [] => (.ok [], args1)
        | _ => bindRequiredMulti params args1
      match step with
      | (.error e, args2) => (.error e, args2)
      | (.ok parsed, args2) =>
        let options := doc.tags.filter (fun t => t.tag == "param" && t.optional == true)
        let optionMap := options.flatMap (fun o => (optionKeywords o).map (fun k => (k, o)))
        let keywords := dedupKeywords (options.flatMap optionKeywords)
        if ambiguousHit parsed keywords then (.error .ambiguousArguments, args2)
        else
          let argChars := (strIntercalate " " args2).toList
          let mtchs :=
            if keywords.length ≠ 0 then
              scanMatches (sortByLenDesc keywords) 0 (' ' :: argChars)
            else []
          let leadErr : Option JErr :=
            match mtchs.head? with
            | some (idx, _) =>
              if idx ≠ 0 then some (.unknownArgument (String.mk (argChars.take idx)))
              else none
            | none => none
          match leadErr with
          | some e => (.error e, args2)
          | none =>
            match processMatches optionMap argChars mtchs [] with
            | .error e => (.error e, args2)
            | .ok optionObj =>
              let parsed2 := parsed ++
                (options.filter (fun o => !strContains o.name '.')).map
                  (fun o => objGet optionObj o.name)
              match jsTrimTrailingUndef parsed2 with
              | none => (.error .nonTermination, args2)
              | some trimmed =>
                if trimmed.length < params.length then
                  (.error (.missingArguments (strIntercalate " "
                    ((params.drop trimmed.length).map (fun p => "<" ++ p.name ++ ">")))), args2)
                else (.ok trimmed, args2)

/-- A block from the provider's ordered comment stream.  `stop` models the
source's `end` offset (a reserved word in Lean). -/
structure Comment where
  block : Bool
  text : String
  start : Nat
  stop : Nat
  deriving Repr, DecidableEq

/-- One export construct as delivered by the syntax provider's walk, in
source order.  A named export list is flattened into one `specifier` per
exported name (the walk pushes one entry per specifier, in order);
`specifier` carries the exported name, the local name, the already-resolved
re-export source path when one is named, and the offset of the exported
identifier. -/
inductive Construct where
  | exportAll (target : String) : Construct
  | namedDecl (name : String) (position : Nat) : Construct
  | specifier (exported localName : String) (source : Option String)
      (exportedStart : Nat) : Construct
  | defaultDecl (position : Nat) : Construct
  deriving Repr, DecidableEq

/-- A module file at the syntax-provider boundary: its export constructs
and its comment stream. -/
structure Module where
  constructs : List Construct
  comments : List Comment

/-- The file system plus the external `comment-parser` capability:
`files` maps absolute paths to parsed modules (`none` for a missing path),
`parseDoc` models `parseComment('/*'+text+'*/', ...)[0]`. -/
structure Env where
  files : String → Option Module
  parseDoc : String → Option Doc

/-- `getSource(file, name)` (lines 124-150): re-read and re-parse the
target file, walk it remembering the last declaration-style export whose
name matches (or the default export when looking for `"default"`), and
fail with `ExportNotFound` when nothing matches.  The second component is
the file-read log of the call. -/
def getSource (env : Env) (file name : String) : (Except JErr Source) × List String :=
  match env.files file with
  | none => (.error (.fileNotFound file), [])
  | some m =>
    let hits := m.constructs.filterMap fun c =>
      match c with
      | .namedDecl n p => if n = name then some p else none
      | .defaultDecl p => if name = "default" then some p else none
      | _ => none
    match hits.getLast? with
    | some p => (.ok ⟨file, name, p⟩, [file])
    | none => (.error (.exportNotFound name file), [file])

/-- The comment search of `getExportDocGetter` (lines 169-174):
`comments.find(...)` where the last element of the stream satisfies the
predicate unconditionally and an earlier element satisfies it when it ends
strictly before the declaration and its successor starts strictly after
the declaration. -/
def findComment : List Comment → Nat → Option Comment
  | [], _ => none
  | [c], _ => some c
  | c :: next :: rest, position =>
    if c.stop < position ∧ next.start > position then some c
    else findComment (next :: rest) position

/-- Documentation attachment for one export (lines 159-179): the entry
file's own content is reused, any other defining file is read again; the
matched comment's parse result overwrites `doc` (even when the parse
produces nothing), and without a match `doc` is left as it was. -/
def getExportDoc (env : Env) (cliFile : String) (exp : Export) :
    (Except JErr Export) × List String :=
  let attach := fun (m : Module) =>
    match findComment m.comments exp.source.position with
    | some c => { exp with doc := env.parseDoc c.text }
    | none => exp
  if exp.source.file = cliFile then
    match env.files cliFile with
    | some m => (.ok (attach m), [])
    | none => (.ok exp, [])
  else
    match env.files exp.source.file with
    | none => (.error (.fileNotFound exp.source.file), [])
    | some m => (.ok (attach m), [exp.source.file])

/-- `Promise.all(cli.exports.map(getExportDoc))` (line 113), with the read
log accumulated across the exports. -/
def attachDocs (env : Env) (cliFile : String) :
    List Export → (Except JErr (List Export)) × List String
  | [] => (.ok [], [])
  | e :: rest =>
    match getExportDoc env cliFile e with
    | (.error err, r) => (.error err, r)
    | (.ok e2, r) =>
      match attachDocs env cliFile rest with
      | (.ok es, r2) => (.ok (e2 :: es), r ++ r2)
      | (.error err, r2) => (.error err, r ++ r2)

/-- Index-aware `Array.prototype.some`. -/
def anyWithIndexAux (p : Nat → α → Bool) : Nat → List α → Bool
  | _, [] => false
  | i, a :: as => p i a || anyWithIndexAux p (i + 1) as

/-- `some((x, i) => ...)` starting at index 0. -/
def anyWithIndex (p : Nat → α → Bool) (l : List α) : Bool :=
  anyWithIndexAux p 0 l

/-- `Array.prototype.findIndex`, as an optional index. -/
def findIdxAux (p : α → Bool) : List α → Nat → Option Nat
  | [], _ => none
  | a :: as, i => if p a then some i else findIdxAux p as (i + 1)

/-- Index-aware `Array.prototype.filter`. -/
def filterWithIndexAux (p : Nat → α → Bool) : Nat → List α → List α
  | _, [] => []
  | i, a :: as =>
    if p i a then a :: filterWithIndexAux p (i + 1) as
    else filterWithIndexAux p (i + 1) as

/-- `filter((x, i, arr) => ...)` starting at index 0. -/
def filterWithIndex (p : Nat → α → Bool) (l : List α) : List α :=
  filterWithIndexAux p 0 l

/-- The filter body of `getExportFilter` (lines 195-212): among duplicate
occurrences of a name, keep only the binding at `findIndex`'s first
entry-file index when one exists, and otherwise only the last occurrence.
The source's `if (!exp) return false` guard drops falsy placeholder
entries, which the model's lists (containing only bindings) cannot hold. -/
def keepExport (cliFile : String) (exports : List Export) (i : Nat) (exp : Export) : Bool :=
  let isDuplicate := anyWithIndex (fun j o => j != i && o.name == exp.name) exports
  if isDuplicate then
    match findIdxAux (fun o => o.name == exp.name && o.source.file == cliFile) exports 0 with
    | some rootExportIndex => i == rootExportIndex
    | none => !(anyWithIndex (fun j o => o.name == exp.name && decide (i < j)) exports)
  else true

/-- `cli.exports.filter(getExportFilter(cli))` (line 109). -/
def getExportFilterRun (cliFile : String) (exports : List Export) : List Export :=
  filterWithIndex (fun i e => keepExport cliFile exports i e) exports

/-- `path.basename(file, path.extname(file))`: strip the directory part,
then the extension beginning at the last dot of the base name provided it
is not the leading character. -/
def basenameNoExt (file : String) : String :=
  let base := (strSplit file '/').getLastD file
  match (((base.toList.enum).filter (fun p => p.2 == '.')).map Prod.fst).getLast? with
  | some i => if 1 ≤ i then String.mk (base.toList.take i) else base
  | none => base

/-- The per-construct body of the walk at lines 55-107, parameterized by
the recursive resolver `recur` applied to re-export-all targets, and
accumulated over the construct list in source order (order-stable splicing
of the concurrently resolved parts). -/
def collectConstructs (env : Env) (recur : String → (Except JErr CLI) × List String)
    (file : String) : List Construct → (Except JErr (List Export)) × List String
  | [] => (.ok [], [])
  | c :: rest =>
    let head : (Except JErr (List Export)) × List String :=
      match c with
      | .exportAll target =>
        (match recur target with
         | (.ok nested, r) => (.ok nested.exports, r)
         | (.error e, r) => (.error e, r))
      | .namedDecl n p => (.ok [⟨n, ⟨file, n, p⟩, none⟩], [])
      | .specifier exported localName (some src) _ =>
        (match getSource env src localName with
         | (.ok s, r) => (.ok [⟨exported, s, none⟩], r)
         | (.error e, r) => (.error e, r))
      | .specifier exported localName none pos =>
        (.ok [⟨exported, ⟨file, localName, pos⟩, none⟩], [])
      | .defaultDecl p => (.ok [⟨"default", ⟨file, "default", p⟩, none⟩], [])
    match head with
    | (.error e, r) => (.error e, r)
    | (.ok es, r) =>
      match collectConstructs env recur file rest with
      | (.ok es2, r2) => (.ok (es ++ es2), r ++ r2)
      | (.error e, r2) => (.error e, r ++ r2)

/-- One level of `parse(file)` (lines 35-116): existence check and read of
the entry, construct walk (splicing recursive results in construct order),
collision filter, then documentation attachment over the surviving
bindings. -/
def parseStep (env : Env) (recur : String → (Except JErr CLI) × List String)
    (file : String) : (Except JErr CLI) × List String :=
  match env.files file with
  | none => (.error (.fileNotFound file), [])
  | some m =>
    match collectConstructs env recur file m.constructs with
    | (.error e, r) => (.error e, file :: r)
    | (.ok flat, r) =>
      let filtered := getExportFilterRun file flat
      match attachDocs env file filtered with
      | (.error e, r2) => (.error e, file :: (r ++ r2))
      | (.ok docs, r2) =>
        (.ok ⟨basenameNoExt file, file, docs⟩, file :: (r ++ r2))

/-- `parse(file)` with fuel bounding the re-export recursion depth. -/
def parse (env : Env) : Nat → String → (Except JErr CLI) × List String
  | 0, _ => (.error .outOfFuel, [])
  | n+1, file => parseStep env (parse env n) file

/-!
Specification-side definitions, written from the spec's words, for the
claims that compare the code against a specified shape, together with the
concrete fixtures the theorems evaluate.
-/

/-- The identity of a binding as the spec speaks about it: its exported
name and its defining source (documentation aside). -/
def exportKey (e : Export) : String × Source :=
  (e.name, e.source)

/-- `keepExport` transported to bare name/source keys (the filter body only
ever reads the name and the defining file). -/
def keepKey (cliFile : String) (keys : List (String × Source)) (i : Nat)
    (k : String × Source) : Bool :=
  let isDuplicate := anyWithIndex (fun j o => j != i && o.1 == k.1) keys
  if isDuplicate then
    match findIdxAux (fun o => o.1 == k.1 && o.2.file == cliFile) keys 0 with
    | some rootExportIndex => i == rootExportIndex
    | none => !(anyWithIndex (fun j o => o.1 == k.1 && decide (i < j)) keys)
  else true

/-- The collision filter on keys. -/
def filterKeysRun (cliFile : String) (keys : List (String × Source)) :
    List (String × Source) :=
  filterWithIndex (fun i k => keepKey cliFile keys i k) keys

/-- Specification of the export-graph resolver's output order (spec §4.1 /
§8): the bindings of a module in the order their export constructs appear,
with each re-export-all expansion replaced by the recursively resolved
(and, per level, collision-filtered) bindings of its target, inlined at
its point of occurrence.  Failures that well-formedness (`wfb`) rules out
contribute nothing. -/
def resolveOrderKeys (env : Env) : Nat → String → List (String × Source)
  | 0, _ => []
  | n+1, file =>
    match env.files file with
    | none => []
    | some m =>
      m.constructs.flatMap fun c =>
        match c with
        | .exportAll target => filterKeysRun target (resolveOrderKeys env n target)
        | .namedDecl nm p => [(nm, ⟨file, nm, p⟩)]
        | .specifier exported localName (some src) _ =>
          (match (getSource env src localName).1 with
           | .ok s => [(exported, s)]
           | .error _ => [])
        | .specifier exported localName none pos => [(exported, ⟨file, localName, pos⟩)]
        | .defaultDecl p => [("default", ⟨file, "default", p⟩)]

/-- Decidable well-formedness of the export graph reachable from a file,
with re-export-all chains of length below `n`: every reachable file
exists and every named re-export resolves inside its source file.  This is
the acyclicity-plus-closure hypothesis of the resolver claims. -/
def wfb (env : Env) : Nat → String → Bool
  | 0, _ => false
  | n+1, file =>
    match env.files file with
    | none => false
    | some m =>
      m.constructs.all fun c =>
        match c with
        | .exportAll target => wfb env n target
        | .specifier _ localName (some src) _ =>
          (match (getSource env src localName).1 with
           | .ok _ => true
           | .error _ => false)
        | _ => true

/-- A descriptor with its documentation erased: what remains of a `CLI`
when only names and defining sources count. -/
def stripCLI (cli : CLI) : String × String × List (String × Source) :=
  (cli.name, cli.file, cli.exports.map exportKey)

/-- An environment with every comment stream emptied and the doc parser
disabled: same files, same constructs, no documentation anywhere. -/
def stripComments (env : Env) : Env :=
  ⟨fun f => (env.files f).map (fun m => ⟨m.constructs, []⟩), fun _ => none⟩

/-- Specification shape from the documentation-matcher contract (§4.2):
the closest comment block ending strictly before the position, i.e. the
last such block in stream order. -/
def closestBefore (comments : List Comment) (position : Nat) : Option Comment :=
  (comments.filter (fun c => decide (c.stop < position))).getLast?

/-- Sortedness of a comment stream as the provider delivers it: blocks are
disjoint and in increasing source order, and each block's span is
well-formed. -/
def CommentsSorted (comments : List Comment) : Prop :=
  List.Chain' (fun a b => a.stop < b.start) comments ∧
    ∀ c ∈ comments, c.start ≤ c.stop

/-- C5's collision policy exactly as claimed, checked against what the
filter keeps: for every name bound more than once — if exactly one binding
resolves to the entry file, that binding survives alone; otherwise the
last binding in flattened order survives alone. -/
def c5ClaimCheck (cliFile : String) (exports : List Export) : Bool :=
  exports.all fun e =>
    let same := exports.filter (fun o => o.name == e.name)
    if same.length ≤ 1 then true
    else
      let kept := (getExportFilterRun cliFile exports).filter (fun o => o.name == e.name)
      let roots := same.filter (fun o => o.source.file == cliFile)
      match roots with
      | [r] => kept == [r]
      | _ =>
        match same.getLast? with
        | some l => kept == [l]
        | none => kept == []

/-- C5's collision policy as the code implements it: for every name bound
more than once — if at least one binding resolves to the entry file, the
first such binding survives alone; otherwise the last binding in
flattened order survives alone. -/
def c5AmendedCheck (cliFile : String) (exports : List Export) : Bool :=
  exports.all fun e =>
    let same := exports.filter (fun o => o.name == e.name)
    if same.length ≤ 1 then true
    else
      let kept := (getExportFilterRun cliFile exports).filter (fun o => o.name == e.name)
      let roots := same.filter (fun o => o.source.file == cliFile)
      match roots with
      | r :: _ => kept == [r]
      | [] =>
        match same.getLast? with
        | some l => kept == [l]
        | none => true

/-- A documented required parameter tag. -/
def mkParam (nm ty : String) (opt : Bool) : Tag :=
  ⟨"param", nm, ty, opt, none⟩

/-- Fixture: a descriptor with one export taking one required string
parameter `msg` and one optional boolean parameter `verbose`. -/
def verboseCLI : CLI :=
  ⟨"m", "/m", [⟨"main", ⟨"/m", "main", 0⟩,
    some ⟨"d", [mkParam "msg" "string" false, mkParam "verbose" "boolean" true]⟩⟩]⟩

/-- Fixture: the export named `main` of the two-export descriptor. -/
def mainExport : Export :=
  ⟨"main", ⟨"/cli", "main", 0⟩, some ⟨"main doc", [mkParam "a" "string" false]⟩⟩

/-- Fixture: the export named `test` of the two-export descriptor. -/
def testExport : Export :=
  ⟨"test", ⟨"/cli", "test", 40⟩, some ⟨"test doc", [mkParam "a" "string" false]⟩⟩

/-- Fixture: a descriptor with two documented exports, `main` and `test`. -/
def twoExportCLI : CLI :=
  ⟨"cli", "/cli", [mainExport, testExport]⟩

/-- Fixture: one export with one required string parameter. -/
def oneReqCLI : CLI :=
  ⟨"m", "/m", [⟨"main", ⟨"/m", "main", 0⟩,
    some ⟨"d", [mkParam "a" "string" false]⟩⟩]⟩

/-- Fixture: one export with two required `number` parameters. -/
def twoNumCLI : CLI :=
  ⟨"m", "/m", [⟨"main", ⟨"/m", "main", 0⟩,
    some ⟨"d", [mkParam "a" "number" false, mkParam "b" "number" false]⟩⟩]⟩

/-- Fixture: one export with two required parameters of an unrecognized
declared type, so that a missing token coerces to `undefined`. -/
def mkTwoCustomCLI (n1 n2 : String) : CLI :=
  ⟨"m", "/m", [⟨"main", ⟨"/m", "main", 0⟩,
    some ⟨"d", [mkParam n1 "custom" false, mkParam n2 "custom" false]⟩⟩]⟩

/-- Fixture environment: an entry module whose single export has no
comment block at all. -/
def envNoDoc : Env :=
  ⟨fun f => if f = "/main" then some ⟨[.namedDecl "foo" 10], []⟩ else none,
   fun _ => some ⟨"dd", []⟩⟩

/-- Fixture environment: the entry re-exports everything from the same
file twice. -/
def envDouble : Env :=
  ⟨fun f =>
    if f = "/e" then some ⟨[.exportAll "/a", .exportAll "/a"], []⟩
    else if f = "/a" then some ⟨[.namedDecl "foo" 0], []⟩
    else none,
   fun _ => some ⟨"dd", []⟩⟩

/-- Fixture environment: entry with a local declaration, a re-export-all
of a second file, and a default export. -/
def envOrder : Env :=
  ⟨fun f =>
    if f = "/e" then some ⟨[.namedDecl "x" 5, .exportAll "/b", .defaultDecl 40], []⟩
    else if f = "/b" then some ⟨[.namedDecl "y" 7], []⟩
    else none,
   fun _ => some ⟨"dd", []⟩⟩

/-- Fixture: two same-name bindings that both resolve to the entry file. -/
def rootA : Export := ⟨"foo", ⟨"/e", "foo", 0⟩, none⟩

/-- Fixture: the later of the two entry-file bindings named `foo`. -/
def rootB : Export := ⟨"foo", ⟨"/e", "bar", 5⟩, none⟩

/-- Fixture comment ending at offset 10. -/
def cmtEarly : Comment := ⟨true, "c0", 0, 10⟩

/-- Fixture comment spanning offsets 20-30. -/
def cmtLate : Comment := ⟨true, "c1", 20, 30⟩

/-- Distinct file names of computable length for the chain environment. -/
def mkFile (i : Nat) : String :=
  String.mk (List.replicate (i + 1) 'f')

/-- A chain of `k` re-export-alls: file `i` re-exports everything from
file `i+1` for `i < k`, and file `k` declares one export `foo`. -/
def chainEnv (k : Nat) : Env :=
  ⟨fun s =>
    let n := s.length
    if 1 ≤ n ∧ n ≤ k + 1 ∧ s = mkFile (n - 1) then
      some (if n - 1 < k then ⟨[.exportAll (mkFile n)], []⟩
            else ⟨[.namedDecl "foo" 0], []⟩)
    else none,
   fun _ => some ⟨"d", []⟩⟩

/-- C1: code-bug evidence.  With the two-export descriptor and first token
`"test"`, line 30's `length >= 1` condition makes `parseArgv` select the
first export `main` — not the name-matching export `test` that the claim
(and `execute` in `src/cli_from_jsdoc.mjs`, which later invokes the
name-matched export) requires — and then parse the tokens against `main`'s
parameters; the `UnknownCommand` failure is unreachable unless the export
list is empty. -/
theorem c1_selects_first_export_bug :
    selectProgram twoExportCLI.exports ["test"] = some mainExport ∧
    mainExport.name ≠ "test" ∧
    (parseArgv twoExportCLI ["test"]).1 = .ok [.str ""] :=
  ⟨rfl, by decide, rfl⟩

/-- C2 counterexample: resolving an entry module whose sole export has no
comment block at all still returns that export in the descriptor, with
documentation absent — a binding lacking a resolvable documentation block
is not dropped from the exports list. -/
theorem c2_undocumented_export_kept :
    (parse envNoDoc 1 "/main").1 =
      .ok ⟨"main", "/main", [⟨"foo", ⟨"/main", "foo", 10⟩, none⟩]⟩ ∧
    (⟨"main", "/main", [⟨"foo", ⟨"/main", "foo", 10⟩, none⟩]⟩ : CLI).exports ≠ [] :=
  ⟨rfl, by decide⟩

/-- C3 counterexample: with blocks spanning 0-10 and 20-30, a declaration
at offset 25 (inside the second block) gets the second block attached even
though its span does not end strictly before the declaration — the closest
block ending strictly before 25 is the first one — and a declaration at
offset 5 gets the second block attached although no block ends strictly
before it. -/
theorem c3_attaches_nonpreceding_comment :
    findComment [cmtEarly, cmtLate] 25 = some cmtLate ∧
    ¬ cmtLate.stop < 25 ∧
    closestBefore [cmtEarly, cmtLate] 25 = some cmtEarly ∧
    cmtEarly ≠ cmtLate ∧
    findComment [cmtEarly, cmtLate] 5 = some cmtLate ∧
    closestBefore [cmtEarly, cmtLate] 5 = none := by
  decide

/-- C4 counterexample: binding one token for a one-required-parameter
export consumes the token from the caller's array — after `parseArgv`
returns, the array is empty rather than unchanged. -/
theorem c4_tokens_mutated :
    (parseArgv oneReqCLI ["hello"]).2 = [] ∧ ([] : List String) ≠ ["hello"] :=
  ⟨rfl, by decide⟩

/-- C5 counterexample: with two bindings of the same name both resolving
to the entry file (so not "exactly one"), the claim's policy would keep
the later binding, but the filter keeps the first entry-file binding. -/
theorem c5_two_root_bindings :
    c5ClaimCheck "/e" [rootA, rootB] = false ∧
    getExportFilterRun "/e" [rootA, rootB] = [rootA] ∧
    rootA ≠ rootB := by
  decide

/-- C6 counterexample: an export with two required `number` parameters
invoked with zero tokens fails with the TypeError raised inside `getValue`
(reading `includes` of `undefined`), not with `MissingArguments` naming
the two parameters. -/
theorem c6_zero_tokens_type_error :
    (parseArgv twoNumCLI []).1 = .error (.typeError "includes") ∧
    JErr.typeError "includes" ≠ .missingArguments "<a> <b>" :=
  ⟨rfl, by decide⟩

/-- C8 counterexample: the literal `False` contains no flag marker, so per
the claim it should be accepted case-insensitively as `false`; the code's
literal comparisons are case-sensitive and its prefix checks do not match,
so coercion fails with `InvalidBoolean`. -/
theorem c8_mixed_case_false_rejected :
    getValue (some "False") "boolean" = .error (.invalidBoolean "False") ∧
    (Except.error (JErr.invalidBoolean "False") : Except JErr JVal) ≠ .ok (.bool false) :=
  ⟨rfl, fun h => Except.noConfusion h⟩

/-- C9 counterexample: an entry that re-exports everything from the same
file twice makes a single resolution run read and parse that file three
times (once per recursive resolve, once more to attach documentation). -/
theorem c9_file_read_thrice :
    ((parse envDouble 2 "/e").2).count "/a" = 3 ∧
    ¬ ((parse envDouble 2 "/e").2).count "/a" ≤ 1 := by
  decide

/-- Dropping the head leaves a suffix. -/
theorem tail_isSuffix (l : List α) : l.tail <:+ l := by
  cases l with
  | nil => exact List.suffix_rfl
  | cons a as => exact ⟨[a], rfl⟩

/-- The required-parameter loop only ever removes tokens from the front:
what remains of the argument array is a suffix of what was passed in. -/
theorem bindRequiredMulti_suffix (ps : List Tag) (args : List String) :
    (bindRequiredMulti ps args).2 <:+ args := by
  induction ps generalizing args with
  | nil => exact List.suffix_rfl
  | cons p ps ih =>
    simp only [bindRequiredMulti]
    split
    · exact tail_isSuffix args
    · split
      next vs rest2 heq =>
        have h2 : rest2 <:+ args.tail := by
          have := ih args.tail
          rw [heq] at this
          exact this
        exact h2.trans (tail_isSuffix args)
      next e rest2 heq =>
        have h2 : rest2 <:+ args.tail := by
          have := ih args.tail
          rw [heq] at this
          exact this
        exact h2.trans (tail_isSuffix args)

/-- C4 amended: `bind` operates directly on the caller's token array, not
on a copy, and only ever removes consumed tokens from the front — after
`parseArgv` returns or fails, the caller's array is a suffix of the
original (the unconsumed remainder), unchanged only when nothing was
consumed. -/
theorem c4_final_args_suffix (cli : CLI) (args : List String) :
    (parseArgv cli args).2 <:+ args := by
  simp only [parseArgv]
  split
  · exact List.suffix_rfl
  · next program heq =>
    have hargs1 : (if cli.exports.length > 1 then args.tail else args) <:+ args := by
      split
      · exact tail_isSuffix args
      · exact List.suffix_rfl
    generalize (if cli.exports.length > 1 then args.tail else args) = args1 at hargs1 ⊢
    split
    · exact hargs1
    · next doc heqdoc =>
      have hstep : ∀ ps : List Tag,
          (match ps with
           | [p] =>
             ((getValue (some (strIntercalate " "
                (args1.takeWhile (fun a => !strStartsWith a "-")))) p.type).map
               (fun v => [v]),
              args1.dropWhile (fun a => !strStartsWith a "-"))
           | [] => ((.ok [] : Except JErr (List JVal)), args1)
           | _ => bindRequiredMulti ps args1).2 <:+ args1 := by
        intro ps
        match ps with
        | [p] => exact List.dropWhile_suffix _
        | [] => exact List.suffix_rfl
        | p1 :: p2 :: rest => exact bindRequiredMulti_suffix _ args1
      refine List.IsSuffix.trans ?_ hargs1
      split
      next e args2 hsq =>
        have := hstep (doc.tags.filter (fun t => t.tag == "param" && t.optional == false))
        rw [hsq] at this
        exact this
      next parsed args2 hsq =>
        have harg2 : args2 <:+ args1 := by
          have := hstep (doc.tags.filter (fun t => t.tag == "param" && t.optional == false))
          rw [hsq] at this
          exact this
        repeat first
          | exact harg2
          | split

/-- C6 amended: with two required parameters, a missing-token shortfall
reaches the `MissingArguments` check only when the already-bound values
survive coercion; for parameters of an unrecognized declared type the
missing token coerces to `undefined`, the trim drops it, and `bind` fails
with `MissingArguments` naming exactly the unsatisfied parameters (here
the second of one supplied token) — whereas recognized scalar types fail
earlier with the coercion TypeError (see the counterexample). -/
theorem c6_missing_arguments_naming (n1 n2 : String) :
    (parseArgv (mkTwoCustomCLI n1 n2) ["x"]).1 =
      .error (.missingArguments ("<" ++ n2 ++ ">")) :=
  rfl

/-- C8 amended: a raw boolean value containing a flag marker maps to
`false` exactly when, after stripping leading markers, it begins with
`no-`, and to `true` otherwise; a value without a flag marker is accepted
as the case-sensitive literals `true`/`false`/`1`/`0` or by its
case-insensitive first letter (`n`… maps to `false`, `y`… to `true`), and
everything else fails with `InvalidBoolean` — so `--no-verbose` binds
`verbose` to `false`, `--verbose` or `-v` bind it to `true`, and absence
leaves it `undefined` (trimmed from the result). -/
theorem c8_boolean_coercion (s : String) :
    (strContains s '-' = true →
      getValue (some s) "boolean" =
        .ok (.bool (!strStartsWith (stripLeadingDashes s) "no-")))
    ∧ (strContains s '-' = false →
        ((getValue (some s) "boolean" = .ok (.bool false) ↔
            (s = "false" ∨ s = "0" ∨ strStartsWith (strToLower s) "n" = true))
          ∧ (getValue (some s) "boolean" = .ok (.bool true) ↔
            (¬(s = "false" ∨ s = "0" ∨ strStartsWith (strToLower s) "n" = true) ∧
              (s = "true" ∨ s = "1" ∨ strStartsWith (strToLower s) "y" = true)))
          ∧ (getValue (some s) "boolean" = .error (.invalidBoolean s) ↔
            (¬(s = "false" ∨ s = "0" ∨ strStartsWith (strToLower s) "n" = true) ∧
              ¬(s = "true" ∨ s = "1" ∨ strStartsWith (strToLower s) "y" = true)))))
    ∧ (parseArgv verboseCLI ["hi", "--no-verbose"]).1 = .ok [.str "hi", .bool false]
    ∧ (parseArgv verboseCLI ["hi", "--verbose"]).1 = .ok [.str "hi", .bool true]
    ∧ (parseArgv verboseCLI ["hi", "-v"]).1 = .ok [.str "hi", .bool true]
    ∧ (parseArgv verboseCLI ["hi"]).1 = .ok [.str "hi"] := by
  refine ⟨?_, ?_, rfl, rfl, rfl, rfl⟩
  · intro h
    show (if strContains s '-' = true then
        (.ok (.bool (!strStartsWith (stripLeadingDashes s) "no-")) : Except JErr JVal)
      else _) = _
    rw [if_pos h]
  · intro h
    have e : getValue (some s) "boolean" =
        (if s = "false" ∨ s = "0" ∨ strStartsWith (strToLower s) "n" = true then
          (.ok (.bool false) : Except JErr JVal)
        else if s = "true" ∨ s = "1" ∨ strStartsWith (strToLower s) "y" = true then
          .ok (.bool true)
        else .error (.invalidBoolean s)) := by
      show (if strContains s '-' = true then _ else _) = _
      rw [if_neg (by simp [h])]
    rw [e]
    by_cases h1 : s = "false" ∨ s = "0" ∨ strStartsWith (strToLower s) "n" = true
    · simp [h1]
    · by_cases h2 : s = "true" ∨ s = "1" ∨ strStartsWith (strToLower s) "y" = true
      · simp [h1, h2]
      · simp [h1, h2]

/-- Witness for the amended boolean-coercion theorem at concrete inputs on
both sides of the flag-marker split. -/
theorem c8_boolean_coercion_witness :
    strContains "--no-x" '-' = true ∧
    getValue (some "--no-x") "boolean" =
      .ok (.bool (!strStartsWith (stripLeadingDashes "--no-x") "no-")) ∧
    strContains "nah" '-' = false ∧
    (getValue (some "nah") "boolean" = .ok (.bool false) ↔
      ("nah" = "false" ∨ "nah" = "0" ∨ strStartsWith (strToLower "nah") "n" = true)) :=
  ⟨rfl, (c8_boolean_coercion "--no-x").1 rfl, rfl,
    ((c8_boolean_coercion "nah").2.1 rfl).1⟩

/-- The `|R| > 1` loop consumes exactly one token per parameter, in order,
independent of leading flag markers: when every coercion succeeds the
bound values are those coercions and exactly `|R|` tokens are removed. -/
theorem bindRequiredMulti_eq (params : List Tag) (args : List String) (f : Nat → JVal)
    (hlen : params.length ≤ args.length)
    (hvals : ∀ i (hi : i < params.length),
      getValue args[i]? (params.get ⟨i, hi⟩).type = .ok (f i)) :
    bindRequiredMulti params args =
      (.ok ((List.range params.length).map f), args.drop params.length) := by
  induction params generalizing args f with
  | nil => simp [bindRequiredMulti]
  | cons p ps ih =>
    cases args with
    | nil => simp at hlen
    | cons a as =>
      have hv0 : getValue (some a) p.type = .ok (f 0) := by
        have := hvals 0 (by simp)
        simpa using this
      have hrec := ih as (fun i => f (i + 1))
        (by simpa using hlen)
        (by
          intro i hi
          have := hvals (i + 1) (by simpa using Nat.succ_lt_succ hi)
          simpa using this)
      simp only [bindRequiredMulti, List.head?_cons, List.tail_cons, hv0, hrec]
      simp [List.range_succ_eq_map, List.map_map, Function.comp]

/-- C10: with two or more required parameters, `bind` consumes exactly one
token per required parameter in documentation order even when a consumed
token begins with the flag marker (no stop-at-flag rule applies), and the
subsequent `AmbiguousArguments` rejection fires exactly when some bound
value is a string starting with a surviving optional-parameter keyword. -/
theorem c10_multi_required_consumption :
    (∀ (params : List Tag) (args : List String) (f : Nat → JVal),
      2 ≤ params.length → params.length ≤ args.length →
      (∀ i (hi : i < params.length),
        getValue args[i]? (params.get ⟨i, hi⟩).type = .ok (f i)) →
      bindRequiredMulti params args =
        (.ok ((List.range params.length).map f), args.drop params.length))
    ∧ ∀ (parsed : List JVal) (kws : List String),
        ambiguousHit parsed kws = true ↔
          ∃ s, JVal.str s ∈ parsed ∧ ∃ kw ∈ kws, strStartsWith s kw = true := by
  constructor
  · intro params args f _ hlen hvals
    exact bindRequiredMulti_eq params args f hlen hvals
  · intro parsed kws
    simp only [ambiguousHit, List.any_eq_true]
    constructor
    · rintro ⟨v, hv, hmatch⟩
      cases v with
      | str s =>
        simp only [List.any_eq_true] at hmatch
        obtain ⟨kw, hkw, hsw⟩ := hmatch
        exact ⟨s, hv, kw, hkw, hsw⟩
      | undefVal => simp at hmatch
      | jnull => simp at hmatch
      | bool b => simp at hmatch
      | num q => simp at hmatch
      | arr xs => simp at hmatch
      | obj fs => simp at hmatch
    · rintro ⟨s, hs, kw, hkw, hsw⟩
      exact ⟨.str s, hs, by simp only [List.any_eq_true]; exact ⟨kw, hkw, hsw⟩⟩

/-- Witness for C10 at a concrete input: two required string parameters
consume the tokens `-x` and `y` — the first beginning with a flag marker —
and the ambiguity check fires on a string value starting with a keyword. -/
theorem c10_multi_required_consumption_witness :
    bindRequiredMulti [mkParam "a" "string" false, mkParam "b" "string" false]
        ["-x", "y", "z"] =
      (.ok ((List.range 2).map fun i => if i = 0 then JVal.str "-x" else .str "y"),
        ["-x", "y", "z"].drop 2) ∧
    (ambiguousHit [.str "--flag 1"] ["--flag"] = true ↔
      ∃ s, JVal.str s ∈ [JVal.str "--flag 1"] ∧
        ∃ kw ∈ ["--flag"], strStartsWith s kw = true) :=
  ⟨c10_multi_required_consumption.1
      [mkParam "a" "string" false, mkParam "b" "string" false]
      ["-x", "y", "z"] (fun i => if i = 0 then .str "-x" else .str "y")
      (by decide) (by decide)
      (by
        intro i hi
        match i, hi with
        | 0, _ => rfl
        | 1, _ => rfl),
    c10_multi_required_consumption.2 [.str "--flag 1"] ["--flag"]⟩

/-- In a sorted comment stream the first block's start bounds every
block's start from below. -/
theorem chain_start_mono (hd : Comment) (tl : List Comment)
    (h : List.Chain' (fun a b => a.stop < b.start) (hd :: tl))
    (hwf : ∀ c ∈ hd :: tl, c.start ≤ c.stop) :
    ∀ d ∈ hd :: tl, hd.start ≤ d.start := by
  induction tl generalizing hd with
  | nil =>
    intro d hd'
    simp at hd'
    subst hd'
    exact le_refl _
  | cons next rest ih =>
    intro d hd'
    rcases List.mem_cons.mp hd' with h1 | h2
    · subst h1; exact le_refl _
    · have hnext : next.start ≤ d.start := by
        refine ih next ?_ ?_ d h2
        · exact (List.chain'_cons.mp h).2
        · intro c hc
          exact hwf c (List.mem_cons_of_mem _ hc)
      have h1 : hd.stop < next.start := (List.chain'_cons.mp h).1
      exact le_trans (le_trans (hwf hd (List.mem_cons_self _ _)) (le_of_lt h1)) hnext

/-- Main case of the C3 characterization: over a sorted stream, when some
block ends strictly before the declaration and the declaration lies
outside every block, the code's search returns the closest block ending
strictly before the declaration. -/
theorem findComment_eq_closestBefore :
    ∀ (comments : List Comment) (position : Nat),
      CommentsSorted comments →
      (∃ c ∈ comments, c.stop < position) →
      (∀ c ∈ comments, position < c.start ∨ c.stop < position) →
      findComment comments position = closestBefore comments position := by
  intro comments
  induction comments with
  | nil =>
    intro pos _ hex _
    simp at hex
  | cons c tl ih =>
    intro pos hs hex hout
    cases tl with
    | nil =>
      obtain ⟨d, hd, hdlt⟩ := hex
      simp at hd
      subst hd
      simp [findComment, closestBefore, List.filter_cons, hdlt]
    | cons next rest =>
      have hstail : CommentsSorted (next :: rest) :=
        ⟨(List.chain'_cons.mp hs.1).2,
          fun x hx => hs.2 x (List.mem_cons_of_mem _ hx)⟩
      by_cases hcond : c.stop < pos ∧ next.start > pos
      · simp only [findComment, if_pos hcond]
        have htailnone : ∀ d ∈ next :: rest, ¬ d.stop < pos := by
          intro d hd
          have hmono := chain_start_mono next rest hstail.1 hstail.2 d hd
          have h1 : pos < d.start := lt_of_lt_of_le hcond.2 hmono
          have hwfd : d.start ≤ d.stop := hstail.2 d hd
          omega
        have hfil : (next :: rest).filter (fun x => decide (x.stop < pos)) = [] := by
          rw [List.filter_eq_nil_iff]
          intro a ha
          simpa using htailnone a ha
        simp [closestBefore, List.filter_cons, hcond.1, hfil]
      · simp only [findComment, if_neg hcond]
        by_cases hc : c.stop < pos
        · have hnextstop : next.stop < pos := by
            have hnextle : ¬ next.start > pos := fun hgt => hcond ⟨hc, hgt⟩
            rcases hout next (List.mem_cons_of_mem _ (List.mem_cons_self _ _)) with h1 | h1
            · omega
            · exact h1
          have htl := ih pos hstail
            ⟨next, List.mem_cons_self _ _, hnextstop⟩
            (fun d hd => hout d (List.mem_cons_of_mem _ hd))
          rw [htl]
          show closestBefore (next :: rest) pos = closestBefore (c :: next :: rest) pos
          simp only [closestBefore, List.filter_cons, hc, hnextstop]
          simp only [decide_True, if_true]
          rw [List.getLast?_cons_cons]
        · exfalso
          obtain ⟨d, hd, hdlt⟩ := hex
          have hmono := chain_start_mono c (next :: rest) hs.1 hs.2 d hd
          have hcout : pos < c.start ∨ c.stop < pos :=
            hout c (List.mem_cons_self _ _)
          have hwfd : d.start ≤ d.stop := hs.2 d hd
          rcases hcout with h1 | h1
          · omega
          · exact hc h1

/-- Fallback case of the C3 characterization: when no block ends strictly
before the declaration, the search returns the stream's last block. -/
theorem findComment_last_of_none :
    ∀ (comments : List Comment) (position : Nat), comments ≠ [] →
      (∀ c ∈ comments, ¬ c.stop < position) →
      findComment comments position = comments.getLast? := by
  intro comments
  induction comments with
  | nil =>
    intro pos hne _
    exact absurd rfl hne
  | cons c tl ih =>
    intro pos _ hnone
    cases tl with
    | nil => simp [findComment]
    | cons next rest =>
      have hcond : ¬ (c.stop < pos ∧ next.start > pos) := by
        intro h
        exact hnone c (List.mem_cons_self _ _) h.1
      simp only [findComment, if_neg hcond]
      rw [List.getLast?_cons_cons]
      exact ih pos (by simp) (fun d hd => hnone d (List.mem_cons_of_mem _ hd))

/-- C3 amended: over a sorted comment stream, the block attached to a
declaration is the closest block ending strictly before it, provided at
least one block ends strictly before the declaration and the declaration
lies outside every block's span; when blocks exist but none ends strictly
before the declaration, the last block of the stream is attached instead
(documentation is absent only for an empty stream). -/
theorem c3_doc_match_characterization (comments : List Comment) (position : Nat)
    (hs : CommentsSorted comments) :
    ((∃ c ∈ comments, c.stop < position) →
     (∀ c ∈ comments, position < c.start ∨ c.stop < position) →
     findComment comments position = closestBefore comments position)
    ∧ (comments ≠ [] → (∀ c ∈ comments, ¬ c.stop < position) →
       findComment comments position = comments.getLast?) :=
  ⟨fun hex hout => findComment_eq_closestBefore comments position hs hex hout,
   fun hne hnone => findComment_last_of_none comments position hne hnone⟩

/-- Witness for the C3 characterization at a concrete stream: the
declaration at offset 15 sits between the two blocks, and the closest
preceding block is attached. -/
theorem c3_doc_match_characterization_witness :
    CommentsSorted [cmtEarly, cmtLate] ∧
    findComment [cmtEarly, cmtLate] 15 = closestBefore [cmtEarly, cmtLate] 15 := by
  have hsorted : CommentsSorted [cmtEarly, cmtLate] :=
    ⟨List.chain'_cons.mpr ⟨by decide, List.chain'_singleton _⟩, by decide⟩
  refine ⟨hsorted, ?_⟩
  exact (c3_doc_match_characterization [cmtEarly, cmtLate] 15 hsorted).1
    ⟨cmtEarly, by decide, by decide⟩
    (by
      intro c hc
      rcases List.mem_cons.mp hc with h | h
      · subst h; right; decide
      · simp at h; subst h; left; decide)

/-- A one-binding list passes the collision filter unchanged. -/
theorem getExportFilterRun_singleton (f : String) (e : Export) :
    getExportFilterRun f [e] = [e] :=
  rfl

/-- The chain file names have computable lengths. -/
theorem mkFile_length (i : Nat) : (mkFile i).length = i + 1 := by
  simp [mkFile, String.length]

/-- Distinct chain indices give distinct file names. -/
theorem mkFile_ne (i j : Nat) (h : i ≠ j) : mkFile i ≠ mkFile j := by
  intro heq
  have := congrArg String.length heq
  rw [mkFile_length, mkFile_length] at this
  omega

/-- Looking up a chain file yields its module. -/
theorem chainEnv_lookup (k i : Nat) (h : i ≤ k) :
    (chainEnv k).files (mkFile i) =
      some (if i < k then ⟨[.exportAll (mkFile (i + 1))], []⟩
            else ⟨[.namedDecl "foo" 0], []⟩) := by
  show (if 1 ≤ (mkFile i).length ∧ (mkFile i).length ≤ k + 1 ∧
          mkFile i = mkFile ((mkFile i).length - 1) then
        some (if (mkFile i).length - 1 < k then
                (⟨[.exportAll (mkFile ((mkFile i).length)), ], []⟩ : Module)
              else ⟨[.namedDecl "foo" 0], []⟩)
      else none) = _
  rw [mkFile_length]
  rw [if_pos ⟨by omega, by omega, by simp⟩]
  simp

/-- C9 amended: there is no read cache — resolving a chain of `d`
re-export-alls reads and parses the final defining file `d + 1` times
(once for its own parse, once per enclosing level to attach its export's
documentation), so a file can be read arbitrarily often in one run. -/
theorem c9_chain_reads (k : Nat) :
    ∀ fuel i, i ≤ k → k - i < fuel →
      ∃ cli reads, parse (chainEnv k) fuel (mkFile i) = (.ok cli, reads)
        ∧ cli.exports = [⟨"foo", ⟨mkFile k, "foo", 0⟩, none⟩]
        ∧ reads.count (mkFile k) = (k - i) + 1 := by
  intro fuel
  induction fuel with
  | zero =>
    intro i hik hfuel
    omega
  | succ n ih =>
    intro i hik hfuel
    by_cases hlt : i < k
    · obtain ⟨cliN, readsN, hparseN, hexpN, hcountN⟩ :=
        ih (i + 1) (by omega) (by omega)
      have hne : mkFile i ≠ mkFile k := mkFile_ne i k (by omega)
      have hstep : parse (chainEnv k) (n + 1) (mkFile i) =
          (.ok ⟨basenameNoExt (mkFile i), mkFile i,
              [⟨"foo", ⟨mkFile k, "foo", 0⟩, none⟩]⟩,
            mkFile i :: (readsN ++ [mkFile k])) := by
        show parseStep (chainEnv k) (parse (chainEnv k) n) (mkFile i) = _
        rw [parseStep, chainEnv_lookup k i hik, if_pos hlt]
        simp only [collectConstructs, hparseN, hexpN, List.append_nil]
        rw [getExportFilterRun_singleton]
        simp only [attachDocs, getExportDoc]
        rw [if_neg (Ne.symm hne)]
        rw [chainEnv_lookup k k (le_refl k), if_neg (lt_irrefl k)]
        simp [findComment]
      refine ⟨_, _, hstep, rfl, ?_⟩
      have hbeq : (mkFile i == mkFile k) = false := by
        simp only [beq_eq_false_iff_ne, ne_eq]
        exact hne
      simp [List.count_cons, List.count_append, hbeq, hcountN]
      omega
    · have hik2 : i = k := by omega
      subst hik2
      have hstep : parse (chainEnv i) (n + 1) (mkFile i) =
          (.ok ⟨basenameNoExt (mkFile i), mkFile i,
              [⟨"foo", ⟨mkFile i, "foo", 0⟩, none⟩]⟩,
            [mkFile i]) := by
        show parseStep (chainEnv i) (parse (chainEnv i) n) (mkFile i) = _
        rw [parseStep, chainEnv_lookup i i (le_refl i), if_neg (lt_irrefl i)]
        simp [collectConstructs, attachDocs, getExportDoc, findComment,
          getExportFilterRun_singleton, chainEnv_lookup i i (le_refl i),
          lt_self_iff_false]
      refine ⟨_, _, hstep, rfl, ?_⟩
      simp [List.count_cons]

/-- Witness for the chain-read theorem: one re-export-all level makes the
defining file be read twice in a single run. -/
theorem c9_chain_reads_witness :
    (0 ≤ 1 ∧ 1 - 0 < 2) ∧
    (∃ cli reads, parse (chainEnv 1) 2 (mkFile 0) = (.ok cli, reads)
      ∧ cli.exports = [⟨"foo", ⟨mkFile 1, "foo", 0⟩, none⟩]
      ∧ reads.count (mkFile 1) = (1 - 0) + 1) :=
  ⟨⟨by decide, by decide⟩, c9_chain_reads 1 2 0 (by decide) (by decide)⟩

/-- Index-aware `some` over a mapped list. -/
theorem anyWithIndexAux_map (p : Nat → β → Bool) (f : α → β) :
    ∀ (l : List α) (j : Nat),
      anyWithIndexAux p j (l.map f) = anyWithIndexAux (fun i a => p i (f a)) j l := by
  intro l
  induction l with
  | nil => intro j; rfl
  | cons a as ih =>
    intro j
    simp only [List.map_cons, anyWithIndexAux, ih]

/-- `findIndex` over a mapped list. -/
theorem findIdxAux_map (p : β → Bool) (f : α → β) :
    ∀ (l : List α) (j : Nat),
      findIdxAux p (l.map f) j = findIdxAux (fun a => p (f a)) l j := by
  intro l
  induction l with
  | nil => intro j; rfl
  | cons a as ih =>
    intro j
    simp only [List.map_cons, findIdxAux]
    split <;> simp [ih]

/-- Index-aware `filter` commutes with `map` when the predicate factors
through the mapped value. -/
theorem filterWithIndexAux_map (q : Nat → β → Bool) (f : α → β) :
    ∀ (l : List α) (j : Nat),
      (filterWithIndexAux (fun i a => q i (f a)) j l).map f =
        filterWithIndexAux q j (l.map f) := by
  intro l
  induction l with
  | nil => intro j; rfl
  | cons a as ih =>
    intro j
    simp only [List.map_cons, filterWithIndexAux]
    split
    next h => simp [h, ih]
    next h => simp [h, ih]

/-- The index-aware filter yields a sublist. -/
theorem filterWithIndexAux_sublist (p : Nat → α → Bool) :
    ∀ (l : List α) (j : Nat), (filterWithIndexAux p j l).Sublist l := by
  intro l
  induction l with
  | nil => intro j; exact List.Sublist.refl _
  | cons a as ih =>
    intro j
    simp only [filterWithIndexAux]
    split
    · exact List.Sublist.cons₂ a (ih (j + 1))
    · exact List.Sublist.cons a (ih (j + 1))

/-- The filter body reads only the name and defining file of the bindings:
it factors through `exportKey`. -/
theorem keepExport_eq_keepKey (f : String) (l : List Export) (i : Nat) (e : Export) :
    keepExport f l i e = keepKey f (l.map exportKey) i (exportKey e) := by
  simp only [keepExport, keepKey, anyWithIndex, findIdxAux_map, anyWithIndexAux_map]
  rfl

/-- The collision filter commutes with projecting bindings to keys. -/
theorem getExportFilterRun_keys (f : String) (l : List Export) :
    (getExportFilterRun f l).map exportKey = filterKeysRun f (l.map exportKey) := by
  simp only [getExportFilterRun, filterKeysRun, filterWithIndex]
  rw [← filterWithIndexAux_map (fun i k => keepKey f (l.map exportKey) i k) exportKey]
  simp only [keepExport_eq_keepKey]

/-- Two `Except` values with equal images under a mapped function are
either the same error or successes with equal images. -/
theorem exceptMapCases (f : α → β) (a b : Except JErr α)
    (h : a.map f = b.map f) :
    (∃ e, a = .error e ∧ b = .error e) ∨
      (∃ x y, a = .ok x ∧ b = .ok y ∧ f x = f y) := by
  cases a with
  | error e =>
    cases b with
    | error e2 =>
      left
      simp only [Except.map] at h
      cases h
      exact ⟨e, rfl, rfl⟩
    | ok y => simp [Except.map] at h
  | ok x =>
    cases b with
    | error e2 => simp [Except.map] at h
    | ok y =>
      right
      simp only [Except.map, Except.ok.injEq] at h
      exact ⟨x, y, rfl, rfl, h⟩

/-- `getSource` depends only on file presence and constructs, so erasing
comments does not change it. -/
theorem getSource_stripComments (env : Env) (file nm : String) :
    getSource (stripComments env) file nm = getSource env file nm := by
  simp only [getSource, stripComments]
  cases henv : env.files file with
  | none => simp
  | some m => simp

/-- Documentation attachment never changes a binding's name or source. -/
theorem getExportDoc_key (env : Env) (cliFile : String) (e e2 : Export)
    (r : List String) (h : getExportDoc env cliFile e = (.ok e2, r)) :
    exportKey e2 = exportKey e := by
  simp only [getExportDoc] at h
  split at h
  · split at h
    · split at h
      · cases h; rfl
      · cases h; rfl
    · cases h; rfl
  · split at h
    · cases h
    · split at h
      · cases h; rfl
      · cases h; rfl

/-- Attaching documentation over two binding lists with the same keys, in
environments with the same file presence, errs identically or succeeds
with the same keys. -/
theorem attachDocs_keys (envA envB : Env)
    (hfiles : ∀ f, (envB.files f).isSome = (envA.files f).isSome)
    (cliFile : String) :
    ∀ (l1 l2 : List Export), l1.map exportKey = l2.map exportKey →
      Except.map (List.map exportKey) (attachDocs envA cliFile l1).1 =
        Except.map (List.map exportKey) (attachDocs envB cliFile l2).1 := by
  intro l1
  induction l1 with
  | nil =>
    intro l2 h
    cases l2 with
    | nil => rfl
    | cons b bs => simp at h
  | cons e1 r1 ih =>
    intro l2 h
    cases l2 with
    | nil => simp at h
    | cons e2 r2 =>
      simp only [List.map_cons, List.cons.injEq] at h
      obtain ⟨hkey, htail⟩ := h
      have hfile : e2.source.file = e1.source.file := by
        have := congrArg (fun k => k.2.file) hkey
        simpa [exportKey] using this.symm
      have hname : e2.source = e1.source ∧ e2.name = e1.name := by
        constructor
        · have := congrArg Prod.snd hkey
          simpa [exportKey] using this.symm
        · have := congrArg Prod.fst hkey
          simpa [exportKey] using this.symm
      -- relate the two getExportDoc calls
      have hdoc : ∀ ea eb ra rb,
          getExportDoc envA cliFile e1 = (ea, ra) →
          getExportDoc envB cliFile e2 = (eb, rb) →
          Except.map exportKey ea = Except.map exportKey eb := by
        intro ea eb ra rb ha hb
        by_cases hcf : e1.source.file = cliFile
        · have hcf2 : e2.source.file = cliFile := by rw [hfile]; exact hcf
          simp only [getExportDoc, if_pos hcf, if_pos hcf2] at ha hb
          rcases hA : envA.files cliFile with _ | mA <;> rw [hA] at ha
          all_goals rcases hB : envB.files cliFile with _ | mB <;> rw [hB] at hb
          · cases ha; cases hb; simp [Except.map, exportKey, hname.1, hname.2]
          · cases ha; cases hb
            simp only [Except.map]
            congr 1
            split <;> simp [exportKey, hname.1, hname.2]
          · cases ha; cases hb
            simp only [Except.map]
            congr 1
            split <;> simp [exportKey, hname.1, hname.2]
          · cases ha; cases hb
            simp only [Except.map]
            congr 1
            split <;> split <;> simp [exportKey, hname.1, hname.2]
        · have hcf2 : ¬ e2.source.file = cliFile := by rw [hfile]; exact hcf
          simp only [getExportDoc, if_neg hcf, if_neg hcf2] at ha hb
          rw [hfile] at hb
          rcases hA : envA.files e1.source.file with _ | mA <;> rw [hA] at ha
          · have : envB.files e1.source.file = none := by
              have := hfiles e1.source.file
              rw [hA] at this
              simpa [Option.isSome_iff_exists] using this
            rw [this] at hb
            cases ha; cases hb
            simp [Except.map]
          · have : ∃ mB, envB.files e1.source.file = some mB := by
              have := hfiles e1.source.file
              rw [hA] at this
              simpa [Option.isSome_iff_exists] using this
            obtain ⟨mB, hmB⟩ := this
            rw [hmB] at hb
            cases ha; cases hb
            simp only [Except.map]
            congr 1
            split <;> split <;> simp [exportKey, hname.1, hname.2]
      rcases ha : getExportDoc envA cliFile e1 with ⟨ea, ra⟩
      rcases hb : getExportDoc envB cliFile e2 with ⟨eb, rb⟩
      have hmap := hdoc ea eb ra rb ha hb
      rcases exceptMapCases exportKey ea eb hmap with ⟨err, he1, he2⟩ | ⟨x, y, hx, hy, hxy⟩
      · subst he1; subst he2
        simp only [attachDocs, ha, hb]
      · subst hx; subst hy
        have hrec := ih r2 htail
        simp only [attachDocs, ha, hb]
        rcases exceptMapCases (List.map exportKey)
            (attachDocs envA cliFile r1).1 (attachDocs envB cliFile r2).1 hrec with
          ⟨err, hh1, hh2⟩ | ⟨xs, ys, hh1, hh2⟩
        · rcases h1 : attachDocs envA cliFile r1 with ⟨res1, rr1⟩
          rcases h2 : attachDocs envB cliFile r2 with ⟨res2, rr2⟩
          rw [h1] at hh1; rw [h2] at hh2
          simp only at hh1 hh2
          subst hh1; subst hh2
          simp [Except.map]
        · rcases h1 : attachDocs envA cliFile r1 with ⟨res1, rr1⟩
          rcases h2 : attachDocs envB cliFile r2 with ⟨res2, rr2⟩
          rw [h1] at hh1; rw [h2] at hh2
          simp only at hh1 hh2
          obtain ⟨hh2a, hh2b⟩ := hh2
          subst hh1; subst hh2a
          simp only [Except.map, List.map_cons]
          rw [hxy, hh2b]

/-- The construct walk errs identically or produces bindings with the same
keys when run against the comment-stripped environment, provided the
recursive resolvers agree up to documentation. -/
theorem collectConstructs_stripComments (env : Env)
    (recurA recurB : String → (Except JErr CLI) × List String)
    (hrec : ∀ t, Except.map stripCLI (recurA t).1 = Except.map stripCLI (recurB t).1)
    (file : String) :
    ∀ cs : List Construct,
      Except.map (List.map exportKey) (collectConstructs env recurA file cs).1 =
        Except.map (List.map exportKey)
          (collectConstructs (stripComments env) recurB file cs).1 := by
  intro cs
  induction cs with
  | nil => rfl
  | cons c rest ih =>
    have hhead : ∀ (headA headB : (Except JErr (List Export)) × List String),
        Except.map (List.map exportKey) headA.1 =
          Except.map (List.map exportKey) headB.1 →
        Except.map (List.map exportKey)
            (match headA with
             | (.error e, r) => ((.error e : Except JErr (List Export)), r)
             | (.ok es, r) =>
               match collectConstructs env recurA file rest with
               | (.ok es2, r2) => (.ok (es ++ es2), r ++ r2)
               | (.error e, r2) => (.error e, r ++ r2)).1 =
          Except.map (List.map exportKey)
            (match headB with
             | (.error e, r) => ((.error e : Except JErr (List Export)), r)
             | (.ok es, r) =>
               match collectConstructs (stripComments env) recurB file rest with
               | (.ok es2, r2) => (.ok (es ++ es2), r ++ r2)
               | (.error e, r2) => (.error e, r ++ r2)).1 := by
      intro headA headB hmap
      rcases headA with ⟨resA, logA⟩
      rcases headB with ⟨resB, logB⟩
      rcases exceptMapCases _ resA resB hmap with ⟨e, h1, h2⟩ | ⟨x, y, h1, h2, hxy⟩
      · subst h1; subst h2; rfl
      · subst h1; subst h2
        rcases exceptMapCases _ (collectConstructs env recurA file rest).1
            (collectConstructs (stripComments env) recurB file rest).1 ih with
          ⟨e, hh1, hh2⟩ | ⟨xs, ys, hh1, hh2, hxys⟩
        · rcases hA : collectConstructs env recurA file rest with ⟨rA, lA⟩
          rcases hB : collectConstructs (stripComments env) recurB file rest with ⟨rB, lB⟩
          rw [hA] at hh1; rw [hB] at hh2
          simp only at hh1 hh2
          subst hh1; subst hh2
          rfl
        · rcases hA : collectConstructs env recurA file rest with ⟨rA, lA⟩
          rcases hB : collectConstructs (stripComments env) recurB file rest with ⟨rB, lB⟩
          rw [hA] at hh1; rw [hB] at hh2
          simp only at hh1 hh2
          subst hh1; subst hh2
          simp only [Except.map, List.map_append]
          rw [hxy, hxys]
    have hfixed : ∀ (es : List Export) (ra rb : List String),
        Except.map (List.map exportKey)
          (match collectConstructs env recurA file rest with
           | (.ok es2, r2) =>
             ((.ok (es ++ es2) : Except JErr (List Export)), ra ++ r2)
           | (.error e, r2) =>
             ((.error e : Except JErr (List Export)), ra ++ r2)).1 =
        Except.map (List.map exportKey)
          (match collectConstructs (stripComments env) recurB file rest with
           | (.ok es2, r2) =>
             ((.ok (es ++ es2) : Except JErr (List Export)), rb ++ r2)
           | (.error e, r2) =>
             ((.error e : Except JErr (List Export)), rb ++ r2)).1 := by
      intro es ra rb
      rcases hA : collectConstructs env recurA file rest with ⟨rA, lA⟩
      rcases hB : collectConstructs (stripComments env) recurB file rest with ⟨rB, lB⟩
      rw [hA, hB] at ih
      simp only at ih
      rcases exceptMapCases _ rA rB ih with ⟨e, hh1, hh2⟩ | ⟨xs, ys, hh1, hh2, hxys⟩
      · subst hh1; subst hh2
        rfl
      · subst hh1; subst hh2
        simp only [Except.map, List.map_append]
        rw [hxys]
    cases c with
    | exportAll target =>
      simp only [collectConstructs]
      apply hhead
      rcases hA : recurA target with ⟨rA, lA⟩
      rcases hB : recurB target with ⟨rB, lB⟩
      have := hrec target
      rw [hA, hB] at this
      simp only at this
      rcases exceptMapCases _ rA rB this with ⟨e, h1, h2⟩ | ⟨x, y, h1, h2, hxy⟩
      · subst h1; subst h2; rfl
      · subst h1; subst h2
        simp only [Except.map, Except.ok.injEq]
        have := congrArg (fun t => t.2.2) hxy
        simpa [stripCLI] using this
    | namedDecl nm p =>
      simp only [collectConstructs]
      exact hfixed _ _ _
    | specifier exported localName src pos =>
      cases src with
      | none =>
        simp only [collectConstructs]
        exact hfixed _ _ _
      | some srcFile =>
        simp only [collectConstructs, getSource_stripComments]
        rcases hgs : getSource env srcFile localName with ⟨rg, lg⟩
        cases rg with
        | ok s => exact hfixed _ _ _
        | error e => rfl
    | defaultDecl p =>
      simp only [collectConstructs]
      exact hfixed _ _ _

/-- C2 amended: the collision filter runs before documentation lookup and
never inspects documentation, so which bindings a descriptor contains (and
in which order, with which sources) is entirely independent of the comment
streams: resolving against the comment-stripped environment yields the
same descriptor up to the attached documentation, and bindings lacking a
documentation block simply remain with documentation absent. -/
theorem c2_exports_independent_of_comments (env : Env) :
    ∀ (n : Nat) (file : String),
      Except.map stripCLI (parse env n file).1 =
        Except.map stripCLI (parse (stripComments env) n file).1 := by
  intro n
  induction n with
  | zero => intro file; rfl
  | succ n ih =>
    intro file
    show Except.map stripCLI (parseStep env (parse env n) file).1 =
      Except.map stripCLI (parseStep (stripComments env) (parse (stripComments env) n) file).1
    simp only [parseStep]
    cases henv : env.files file with
    | none =>
      have hstrip : (stripComments env).files file = none := by simp [stripComments, henv]
      simp only [henv, hstrip]
    | some m =>
      have hstrip : (stripComments env).files file = some ⟨m.constructs, []⟩ := by
        simp [stripComments, henv]
      simp only [henv, hstrip]
      have hcollect := collectConstructs_stripComments env
        (parse env n) (parse (stripComments env) n) ih file m.constructs
      rcases hA : collectConstructs env (parse env n) file m.constructs with ⟨rA, lA⟩
      rcases hB : collectConstructs (stripComments env) (parse (stripComments env) n)
        file m.constructs with ⟨rB, lB⟩
      rw [hA, hB] at hcollect
      simp only at hcollect
      have hattachfin : ∀ (flatA flatB : List Export) (la lb : List String),
          flatA.map exportKey = flatB.map exportKey →
          Except.map stripCLI
            (match attachDocs env file (getExportFilterRun file flatA) with
             | (.error e, r2) => ((.error e : Except JErr CLI), file :: (la ++ r2))
             | (.ok docs, r2) =>
               ((.ok ⟨basenameNoExt file, file, docs⟩ : Except JErr CLI),
                 file :: (la ++ r2))).1 =
          Except.map stripCLI
            (match attachDocs (stripComments env) file (getExportFilterRun file flatB) with
             | (.error e, r2) => ((.error e : Except JErr CLI), file :: (lb ++ r2))
             | (.ok docs, r2) =>
               ((.ok ⟨basenameNoExt file, file, docs⟩ : Except JErr CLI),
                 file :: (lb ++ r2))).1 := by
        intro flatA flatB la lb hkeys
        have hfiltkeys : (getExportFilterRun file flatA).map exportKey =
            (getExportFilterRun file flatB).map exportKey := by
          rw [getExportFilterRun_keys, getExportFilterRun_keys, hkeys]
        have hattach := attachDocs_keys env (stripComments env)
          (by intro f; cases h : env.files f <;> simp [stripComments, h])
          file (getExportFilterRun file flatA) (getExportFilterRun file flatB)
          hfiltkeys
        rcases hDA : attachDocs env file (getExportFilterRun file flatA) with ⟨dA, lA2⟩
        rcases hDB : attachDocs (stripComments env) file (getExportFilterRun file flatB)
          with ⟨dB, lB2⟩
        rw [hDA, hDB] at hattach
        simp only at hattach
        rcases exceptMapCases _ dA dB hattach with
          ⟨e, hh1, hh2⟩ | ⟨docsA, docsB, hh1, hh2, hdkeys⟩
        · subst hh1; subst hh2; rfl
        · subst hh1; subst hh2
          simp only [Except.map, Except.ok.injEq, stripCLI]
          simp [hdkeys]
      rcases exceptMapCases _ rA rB hcollect with ⟨e, h1, h2⟩ | ⟨flatA, flatB, h1, h2, hkeys⟩
      · subst h1; subst h2; rfl
      · subst h1; subst h2
        exact hattachfin flatA flatB lA lB hkeys

/-- Index-aware `some` holds exactly when some position satisfies the
predicate at its absolute index. -/
theorem anyWithIndexAux_iff (p : Nat → α → Bool) :
    ∀ (l : List α) (j : Nat),
      anyWithIndexAux p j l = true ↔ ∃ i a, l[i]? = some a ∧ p (j + i) a = true := by
  intro l
  induction l with
  | nil => intro j; simp [anyWithIndexAux]
  | cons a as ih =>
    intro j
    simp only [anyWithIndexAux, Bool.or_eq_true, ih (j + 1)]
    constructor
    · rintro (h | ⟨i, b, hb, hp⟩)
      · exact ⟨0, a, by simp, by simpa using h⟩
      · refine ⟨i + 1, b, by simpa using hb, ?_⟩
        have : j + (i + 1) = j + 1 + i := by omega
        rw [this]
        exact hp
    · rintro ⟨i, b, hb, hp⟩
      cases i with
      | zero =>
        left
        simp only [List.getElem?_cons_zero, Option.some.injEq] at hb
        subst hb
        simpa using hp
      | succ i =>
        right
        refine ⟨i, b, by simpa using hb, ?_⟩
        have : j + 1 + i = j + (i + 1) := by omega
        rw [this]
        exact hp

/-- `some((x, i) => ...)` at absolute indices. -/
theorem anyWithIndex_iff (p : Nat → α → Bool) (l : List α) :
    anyWithIndex p l = true ↔ ∃ i a, l[i]? = some a ∧ p i a = true := by
  simpa using anyWithIndexAux_iff p l 0

/-- The index-aware filter keeps nothing when the predicate never holds. -/
theorem filterWithIndexAux_nil_of (p : Nat → α → Bool) :
    ∀ (l : List α) (j : Nat),
      (∀ i a, l[i]? = some a → p (j + i) a = false) →
      filterWithIndexAux p j l = [] := by
  intro l
  induction l with
  | nil => intro j _; rfl
  | cons a as ih =>
    intro j h
    have h0 : p j a = false := by simpa using h 0 a (by simp)
    simp only [filterWithIndexAux, h0, Bool.false_eq_true, if_false]
    refine ih (j + 1) ?_
    intro i b hb
    have : j + 1 + i = j + (i + 1) := by omega
    rw [this]
    exact h (i + 1) b (by simpa using hb)

/-- The index-aware filter keeps exactly the element at `r` when the
predicate characterizes that position. -/
theorem filterWithIndexAux_single (p : Nat → α → Bool) :
    ∀ (l : List α) (j r : Nat) (x : α),
      l[r]? = some x →
      (∀ i a, l[i]? = some a → (p (j + i) a = true ↔ i = r)) →
      filterWithIndexAux p j l = [x] := by
  intro l
  induction l with
  | nil =>
    intro j r x hx _
    simp at hx
  | cons a as ih =>
    intro j r x hx hch
    cases r with
    | zero =>
      simp only [List.getElem?_cons_zero, Option.some.injEq] at hx
      subst hx
      have h0 : p j a = true := by
        have := hch 0 a (by simp)
        simpa using this.mpr rfl
      simp only [filterWithIndexAux, h0, if_true]
      have hnil : filterWithIndexAux p (j + 1) as = [] := by
        refine filterWithIndexAux_nil_of p as (j + 1) ?_
        intro i b hb
        have harith : j + 1 + i = j + (i + 1) := by omega
        rw [harith]
        have := hch (i + 1) b (by simpa using hb)
        simp only [Nat.succ_ne_zero] at this
        exact Bool.eq_false_iff.mpr (fun hq => by simp [hq] at this)
      rw [hnil]
    | succ r =>
      have h0 : p j a = false := by
        have := hch 0 a (by simp)
        simp only [Nat.add_zero] at this
        exact Bool.eq_false_iff.mpr (fun hq => by
          have := this.mp hq
          omega)
      simp only [filterWithIndexAux, h0, Bool.false_eq_true, if_false]
      refine ih (j + 1) r x (by simpa using hx) ?_
      intro i b hb
      have harith : j + 1 + i = j + (i + 1) := by omega
      rw [harith]
      have := hch (i + 1) b (by simpa using hb)
      rw [this]
      omega

/-- Filtering after the index-aware filter is one combined index-aware
filter. -/
theorem filterWithIndexAux_filter (p : Nat → α → Bool) (q : α → Bool) :
    ∀ (l : List α) (j : Nat),
      (filterWithIndexAux p j l).filter q =
        filterWithIndexAux (fun i a => p i a && q a) j l := by
  intro l
  induction l with
  | nil => intro j; rfl
  | cons a as ih =>
    intro j
    simp only [filterWithIndexAux]
    by_cases hp : p j a = true
    · simp only [hp, if_true, Bool.true_and]
      by_cases hq : q a = true
      · simp [List.filter_cons, hq, ih]
      · simp only [Bool.not_eq_true] at hq
        simp [List.filter_cons, hq, ih]
    · simp only [Bool.not_eq_true] at hp
      simp [hp, ih]

/-- `findIndex` misses exactly when the filter is empty. -/
theorem findIdxAux_none_iff (p : α → Bool) :
    ∀ (l : List α) (j : Nat), findIdxAux p l j = none ↔ l.filter p = [] := by
  intro l
  induction l with
  | nil => intro j; simp [findIdxAux]
  | cons a as ih =>
    intro j
    simp only [findIdxAux, List.filter_cons]
    by_cases hp : p a = true
    · simp [hp]
    · simp only [Bool.not_eq_true] at hp
      simp [hp, ih]

/-- `findIndex` locates the head of the filtered list: the first matching
position, before which nothing matches. -/
theorem findIdxAux_first (p : α → Bool) :
    ∀ (l : List α) (j : Nat) (x : α) (xs : List α),
      l.filter p = x :: xs →
      ∃ r : Nat, findIdxAux p l j = some (j + r) ∧ l[r]? = some x ∧ p x = true ∧
        ∀ (i : Nat) (b : α), i < r → l[i]? = some b → p b = false := by
  intro l
  induction l with
  | nil =>
    intro j x xs h
    simp at h
  | cons a as ih =>
    intro j x xs h
    by_cases hp : p a = true
    · rw [List.filter_cons, if_pos hp] at h
      cases h
      refine ⟨0, ?_, by simp, hp, by omega⟩
      simp [findIdxAux, hp]
    · have hp2 : p a = false := by simpa using hp
      rw [List.filter_cons] at h
      simp only [hp2, Bool.false_eq_true, if_false] at h
      obtain ⟨r, hfind, hget, hpx, hmin⟩ := ih (j + 1) x xs h
      refine ⟨r + 1, ?_, by simpa using hget, hpx, ?_⟩
      · simp only [findIdxAux, hp2, Bool.false_eq_true, if_false]
        rw [hfind]
        congr 1
        omega
      · intro i b hi hb
        cases i with
        | zero =>
          simp only [List.getElem?_cons_zero, Option.some.injEq] at hb
          subst hb
          exact hp2
        | succ i => exact hmin i b (by omega) (by simpa using hb)

/-- The last element of a filtered list sits at a maximal matching
position. -/
theorem filter_getLast_spec (q : α → Bool) :
    ∀ (l : List α) (x : α),
      (l.filter q).getLast? = some x →
      ∃ m : Nat, l[m]? = some x ∧ q x = true ∧
        ∀ (j : Nat) (b : α), m < j → l[j]? = some b → q b = false := by
  intro l
  induction l with
  | nil =>
    intro x h
    simp at h
  | cons a as ih =>
    intro x h
    by_cases hq : q a = true
    · rw [List.filter_cons, if_pos hq] at h
      cases hfa : as.filter q with
      | nil =>
        rw [hfa] at h
        simp only [List.getLast?_singleton, Option.some.injEq] at h
        subst h
        refine ⟨0, by simp, hq, ?_⟩
        intro j b hj hb
        cases j with
        | zero => omega
        | succ j =>
          have hb2 : as[j]? = some b := by simpa using hb
          have hmem : b ∈ as := List.getElem?_mem hb2
          have := List.filter_eq_nil_iff.mp hfa b hmem
          simpa using this
      | cons y ys =>
        rw [hfa, List.getLast?_cons_cons] at h
        rw [← hfa] at h
        obtain ⟨m, hget, hqx, hmax⟩ := ih x h
        refine ⟨m + 1, by simpa using hget, hqx, ?_⟩
        intro j b hj hb
        cases j with
        | zero => omega
        | succ j => exact hmax j b (by omega) (by simpa using hb)
    · have hq2 : q a = false := by simpa using hq
      rw [List.filter_cons] at h
      simp only [hq2, Bool.false_eq_true, if_false] at h
      obtain ⟨m, hget, hqx, hmax⟩ := ih x h
      refine ⟨m + 1, by simpa using hget, hqx, ?_⟩
      intro j b hj hb
      cases j with
      | zero => omega
      | succ j => exact hmax j b (by omega) (by simpa using hb)

/-- A nonempty filter exhibits a matching position. -/
theorem one_filter_index (q : α → Bool) :
    ∀ l : List α, 1 ≤ (l.filter q).length →
      ∃ (j : Nat) (b : α), l[j]? = some b ∧ q b = true := by
  intro l
  induction l with
  | nil => intro h; simp at h
  | cons a as ih =>
    intro h
    by_cases hq : q a = true
    · exact ⟨0, a, by simp, hq⟩
    · have hq2 : q a = false := by simpa using hq
      rw [List.filter_cons] at h
      simp only [hq2, Bool.false_eq_true, if_false] at h
      obtain ⟨j, b, hb, hqb⟩ := ih h
      exact ⟨j + 1, b, by simpa using hb, hqb⟩

/-- A filter of length at least two exhibits two distinct matching
positions. -/
theorem two_filter_indices (q : α → Bool) :
    ∀ l : List α, 2 ≤ (l.filter q).length →
      ∃ (j1 j2 : Nat) (b1 b2 : α), j1 ≠ j2 ∧ l[j1]? = some b1 ∧ q b1 = true ∧
        l[j2]? = some b2 ∧ q b2 = true := by
  intro l
  induction l with
  | nil => intro h; simp at h
  | cons a as ih =>
    intro h
    by_cases hq : q a = true
    · rw [List.filter_cons, if_pos hq] at h
      simp only [List.length_cons] at h
      obtain ⟨j, b, hb, hqb⟩ := one_filter_index q as (by omega)
      exact ⟨0, j + 1, a, b, by omega, by simp, hq, by simpa using hb, hqb⟩
    · have hq2 : q a = false := by simpa using hq
      rw [List.filter_cons] at h
      simp only [hq2, Bool.false_eq_true, if_false] at h
      obtain ⟨j1, j2, b1, b2, hne, h1, hq1, h2, hq2b⟩ := ih h
      exact ⟨j1 + 1, j2 + 1, b1, b2, by omega, by simpa using h1, hq1,
        by simpa using h2, hq2b⟩

/-- With at least two matching elements, every matching position has a
distinct companion. -/
theorem two_indices (q : α → Bool) (l : List α)
    (h : 2 ≤ (l.filter q).length) :
    ∀ i : Nat, ∃ (j : Nat) (o : α), j ≠ i ∧ l[j]? = some o ∧ q o = true := by
  intro i
  obtain ⟨j1, j2, b1, b2, hne, h1, hq1, h2, hq2⟩ := two_filter_indices q l h
  by_cases hi : j1 = i
  · exact ⟨j2, b2, by omega, h2, hq2⟩
  · exact ⟨j1, b1, hi, h1, hq1⟩

/-- Two successive filters combine into one conjunction filter, in the
order the filters ran. -/
theorem filter_comm_and (p q : α → Bool) :
    ∀ l : List α, (l.filter p).filter q = l.filter (fun a => p a && q a) := by
  intro l
  induction l with
  | nil => rfl
  | cons a as ih =>
    by_cases hp : p a = true
    · by_cases hq : q a = true
      · simp [List.filter_cons, hp, hq, ih]
      · simp only [Bool.not_eq_true] at hq
        simp [List.filter_cons, hp, hq, ih]
    · simp only [Bool.not_eq_true] at hp
      simp [List.filter_cons, hp, ih]

/-- C5 amended: the collision policy the filter implements — for every
name bound more than once, if at least one binding (not necessarily
exactly one) resolves to the entry file, the first such binding in
flattened order survives alone; otherwise the last binding in flattened
order survives alone.  In particular the surviving binding for a
duplicated name is unique. -/
theorem c5_collision_policy (cliFile : String) (exports : List Export) :
    c5AmendedCheck cliFile exports = true := by
  rw [c5AmendedCheck, List.all_eq_true]
  intro e he
  simp only
  by_cases hlen : (exports.filter (fun o => o.name == e.name)).length ≤ 1
  · simp [hlen]
  · rw [if_neg hlen]
    have h2 : 2 ≤ (exports.filter (fun o => o.name == e.name)).length := by omega
    have hdupAt : ∀ (i : Nat) (nm : String), nm = e.name →
        anyWithIndex (fun j o => j != i && o.name == nm) exports = true := by
      intro i nm hnm
      subst hnm
      obtain ⟨j, o, hji, hjo, hqo⟩ := two_indices (fun o => o.name == e.name) exports h2 i
      refine (anyWithIndex_iff _ exports).mpr ⟨j, o, hjo, ?_⟩
      have hon : o.name = e.name := by simpa using hqo
      simp [bne_iff_ne, hji, hon]
    simp only [filter_comm_and]
    cases hroots : exports.filter
        (fun a => (a.name == e.name) && (a.source.file == cliFile)) with
    | cons r0 rrest =>
      obtain ⟨r, hfind, hget, hp, hmin⟩ :=
        findIdxAux_first _ exports 0 r0 rrest hroots
      simp only [Nat.zero_add] at hfind
      simp only [Bool.and_eq_true] at hp
      have hname0 : r0.name = e.name := by simpa using hp.1
      rw [beq_iff_eq]
      show (getExportFilterRun cliFile exports).filter (fun o => o.name == e.name) = [r0]
      rw [getExportFilterRun, filterWithIndex, filterWithIndexAux_filter]
      refine filterWithIndexAux_single _ exports 0 r r0 hget ?_
      intro i a hia
      simp only [Nat.zero_add]
      constructor
      · intro h
        simp only [Bool.and_eq_true] at h
        obtain ⟨hkeep, hnameq⟩ := h
        have haname : a.name = e.name := by simpa using hnameq
        have hdup : anyWithIndex (fun j o => j != i && o.name == a.name) exports = true := by
          rw [haname]
          exact hdupAt i e.name rfl
        simp only [keepExport, hdup, if_true] at hkeep
        rw [haname, hfind] at hkeep
        simpa using hkeep
      · intro h
        subst h
        obtain rfl : r0 = a := Option.some.inj (hget.symm.trans hia)
        have hdup : anyWithIndex (fun j o => j != i && o.name == r0.name) exports = true := by
          rw [hname0]
          exact hdupAt i e.name rfl
        simp only [keepExport, hdup, if_true]
        rw [hname0, hfind]
        simp
    | nil =>
      have hnone : findIdxAux
          (fun o => (o.name == e.name) && (o.source.file == cliFile)) exports 0 = none :=
        (findIdxAux_none_iff _ exports 0).mpr hroots
      cases hlast : (exports.filter (fun o => o.name == e.name)).getLast? with
      | none => rfl
      | some lastr =>
        obtain ⟨m, hgetm, hqlast, hmax⟩ :=
          filter_getLast_spec (fun o => o.name == e.name) exports lastr hlast
        have hnamelast : lastr.name = e.name := by simpa using hqlast
        rw [beq_iff_eq]
        show (getExportFilterRun cliFile exports).filter (fun o => o.name == e.name) = [lastr]
        rw [getExportFilterRun, filterWithIndex, filterWithIndexAux_filter]
        refine filterWithIndexAux_single _ exports 0 m lastr hgetm ?_
        intro i a hia
        simp only [Nat.zero_add]
        constructor
        · intro h
          simp only [Bool.and_eq_true] at h
          obtain ⟨hkeep, hnameq⟩ := h
          have haname : a.name = e.name := by simpa using hnameq
          have hdup : anyWithIndex (fun j o => j != i && o.name == a.name) exports = true := by
            rw [haname]
            exact hdupAt i e.name rfl
          simp only [keepExport, hdup, if_true] at hkeep
          rw [haname, hnone] at hkeep
          simp only [Bool.not_eq_true'] at hkeep
          have him : i ≤ m := by
            by_contra hgt
            have := hmax i a (by omega) hia
            simp [haname] at this
          have hmi : m ≤ i := by
            by_contra hgt
            have hx : anyWithIndex (fun j o => o.name == e.name && decide (i < j))
                exports = true := by
              refine (anyWithIndex_iff _ exports).mpr ⟨m, lastr, hgetm, ?_⟩
              simp [hnamelast]
              omega
            rw [hx] at hkeep
            cases hkeep
          omega
        · intro h
          subst h
          obtain rfl : lastr = a := Option.some.inj (hgetm.symm.trans hia)
          have hdup : anyWithIndex (fun j o => j != i && o.name == lastr.name)
              exports = true := by
            rw [hnamelast]
            exact hdupAt i e.name rfl
          simp only [keepExport, hdup, if_true]
          rw [hnamelast, hnone]
          simp only [beq_self_eq_true, Bool.and_true, Bool.not_eq_true']
          refine Bool.eq_false_iff.mpr ?_
          intro hx
          obtain ⟨j, o, hjo, hpred⟩ := (anyWithIndex_iff _ exports).mp hx
          simp only [Bool.and_eq_true] at hpred
          obtain ⟨hon, hmj⟩ := hpred
          have hqo : (o.name == e.name) = false :=
            hmax j o (by simpa using hmj) hjo
          rw [hqo] at hon
          cases hon

/-- A successful `getSource` points into the looked-up (present) file. -/
theorem getSource_ok_file (env : Env) (f nm : String) (s : Source) (lg : List String)
    (h : getSource env f nm = (.ok s, lg)) :
    s.file = f ∧ (env.files f).isSome = true := by
  rw [getSource] at h
  rcases henv : env.files f with _ | m <;> rw [henv] at h
  · exact absurd h (by simp)
  · have h2 : (match (List.filterMap (fun c =>
        match c with
        | Construct.namedDecl n p => if n = nm then some p else none
        | Construct.defaultDecl p => if nm = "default" then some p else none
        | _ => none) m.constructs).getLast? with
        | some p => ((.ok ⟨f, nm, p⟩ : Except JErr Source), [f])
        | none => ((.error (.exportNotFound nm f) : Except JErr Source), [f])) =
          (.ok s, lg) := h
    rcases hl : (List.filterMap (fun c =>
        match c with
        | Construct.namedDecl n p => if n = nm then some p else none
        | Construct.defaultDecl p => if nm = "default" then some p else none
        | _ => none) m.constructs).getLast? with _ | p <;> rw [hl] at h2
    · simp at h2
    · cases h2
      exact ⟨rfl, by simp [henv]⟩

/-- A present defining file lets documentation attachment succeed,
preserving every binding's key. -/
theorem attachDocs_ok (env : Env) (cliFile : String) :
    ∀ l : List Export,
      (∀ e ∈ l, (env.files e.source.file).isSome = true) →
      ∃ l2 r2, attachDocs env cliFile l = (.ok l2, r2) ∧
        l2.map exportKey = l.map exportKey := by
  intro l
  induction l with
  | nil => exact fun _ => ⟨[], [], rfl, rfl⟩
  | cons e rest ih =>
    intro hpres
    have hdoc : ∃ e2 r, getExportDoc env cliFile e = (.ok e2, r) ∧
        exportKey e2 = exportKey e := by
      by_cases hcf : e.source.file = cliFile
      · simp only [getExportDoc, if_pos hcf]
        cases henv : env.files cliFile with
        | none => exact ⟨e, [], rfl, rfl⟩
        | some m =>
          refine ⟨_, [], rfl, ?_⟩
          cases hfc : findComment m.comments e.source.position <;>
            simp [hfc, exportKey]
      · simp only [getExportDoc, if_neg hcf]
        have := hpres e (List.mem_cons_self _ _)
        rcases henv : env.files e.source.file with _ | m
        · rw [henv] at this; cases this
        · refine ⟨_, [e.source.file], rfl, ?_⟩
          cases hfc : findComment m.comments e.source.position <;>
            simp [hfc, exportKey]
    obtain ⟨e2, r, hd, hk⟩ := hdoc
    obtain ⟨l2, r2, hrest, hkeys⟩ := ih (fun x hx => hpres x (List.mem_cons_of_mem _ hx))
    refine ⟨e2 :: l2, r ++ r2, ?_, ?_⟩
    · simp only [attachDocs, hd, hrest]
    · simp [hk, hkeys]

/-- Under well-formedness, `parse` succeeds with a fuel-independent result
whose bindings are the collision-filtered inline order and whose defining
files are all present. -/
theorem parse_wfb :
    ∀ (n : Nat) (env : Env) (file : String), wfb env n file = true →
      ∃ cli reads,
        (∀ m, n ≤ m → parse env m file = (.ok cli, reads))
        ∧ cli.exports.map exportKey = filterKeysRun file (resolveOrderKeys env n file)
        ∧ ∀ e ∈ cli.exports, (env.files e.source.file).isSome = true := by
  intro n
  induction n with
  | zero =>
    intro env file hwf
    simp [wfb] at hwf
  | succ n ih =>
    intro env file hwf
    rw [wfb] at hwf
    rcases henv : env.files file with _ | mod
    · rw [henv] at hwf; cases hwf
    · rw [henv] at hwf
      rw [List.all_eq_true] at hwf
      -- inline order at this level
      have horder : resolveOrderKeys env (n + 1) file =
          mod.constructs.flatMap fun c =>
            match c with
            | .exportAll target => filterKeysRun target (resolveOrderKeys env n target)
            | .namedDecl nm p => [(nm, ⟨file, nm, p⟩)]
            | .specifier exported localName (some src) _ =>
              (match (getSource env src localName).1 with
               | .ok s => [(exported, s)]
               | .error _ => [])
            | .specifier exported localName none pos => [(exported, ⟨file, localName, pos⟩)]
            | .defaultDecl p => [("default", ⟨file, "default", p⟩)] := by
        rw [resolveOrderKeys, henv]
      have hcollect : ∀ cs : List Construct, (∀ c ∈ cs, c ∈ mod.constructs) →
          ∃ flat reads,
            (∀ m, n ≤ m → collectConstructs env (parse env m) file cs = (.ok flat, reads))
            ∧ flat.map exportKey = (cs.flatMap fun c =>
                match c with
                | .exportAll target => filterKeysRun target (resolveOrderKeys env n target)
                | .namedDecl nm p => [(nm, ⟨file, nm, p⟩)]
                | .specifier exported localName (some src) _ =>
                  (match (getSource env src localName).1 with
                   | .ok s => [(exported, s)]
                   | .error _ => [])
                | .specifier exported localName none pos =>
                  [(exported, ⟨file, localName, pos⟩)]
                | .defaultDecl p => [("default", ⟨file, "default", p⟩)])
            ∧ ∀ e ∈ flat, (env.files e.source.file).isSome = true := by
        intro cs
        induction cs with
        | nil => exact fun _ => ⟨[], [], fun _ _ => rfl, rfl, by simp⟩
        | cons c rest ihc =>
          intro hmem
          obtain ⟨flat2, reads2, hrest, hkeys2, hinv2⟩ :=
            ihc (fun x hx => hmem x (List.mem_cons_of_mem _ hx))
          have hc := hwf c (hmem c (List.mem_cons_self _ _))
          have hhead : ∃ es reads1,
              (∀ m, n ≤ m →
                (match c with
                 | .exportAll target =>
                   (match parse env m target with
                    | (.ok nested, r) => ((.ok nested.exports : Except JErr (List Export)), r)
                    | (.error e, r) => (.error e, r))
                 | .namedDecl nm p =>
                   ((.ok [⟨nm, ⟨file, nm, p⟩, none⟩] : Except JErr (List Export)), [])
                 | .specifier exported localName (some src) _ =>
                   (match getSource env src localName with
                    | (.ok s, r) => ((.ok [⟨exported, s, none⟩] : Except JErr (List Export)), r)
                    | (.error e, r) => (.error e, r))
                 | .specifier exported localName none pos =>
                   ((.ok [⟨exported, ⟨file, localName, pos⟩, none⟩] :
                      Except JErr (List Export)), [])
                 | .defaultDecl p =>
                   ((.ok [⟨"default", ⟨file, "default", p⟩, none⟩] :
                      Except JErr (List Export)), [])) = (.ok es, reads1))
              ∧ es.map exportKey = (match c with
                 | .exportAll target => filterKeysRun target (resolveOrderKeys env n target)
                 | .namedDecl nm p => [(nm, ⟨file, nm, p⟩)]
                 | .specifier exported localName (some src) _ =>
                   (match (getSource env src localName).1 with
                    | .ok s => [(exported, s)]
                    | .error _ => [])
                 | .specifier exported localName none pos =>
                   [(exported, ⟨file, localName, pos⟩)]
                 | .defaultDecl p => [("default", ⟨file, "default", p⟩)])
              ∧ ∀ e ∈ es, (env.files e.source.file).isSome = true := by
            cases c with
            | exportAll target =>
              simp only at hc
              obtain ⟨cliN, readsN, hstab, hkeysN, hinvN⟩ := ih env target hc
              refine ⟨cliN.exports, readsN, ?_, by simpa using hkeysN, hinvN⟩
              intro m hm
              show (match parse env m target with
                  | (.ok nested, r) =>
                    ((.ok nested.exports : Except JErr (List Export)), r)
                  | (.error e, r) => ((.error e : Except JErr (List Export)), r)) =
                (.ok cliN.exports, readsN)
              rw [hstab m hm]
            | namedDecl nm p =>
              refine ⟨_, [], fun _ _ => rfl, by simp [exportKey], ?_⟩
              intro e hee
              simp only [List.mem_singleton] at hee
              subst hee
              simp [henv]
            | specifier exported localName src pos =>
              cases src with
              | some srcFile =>
                simp only at hc
                rcases hgs : getSource env srcFile localName with ⟨rg, lg⟩
                rw [hgs] at hc
                cases rg with
                | error e => simp at hc
                | ok s =>
                  obtain ⟨hsfile, hsome⟩ := getSource_ok_file env srcFile localName s lg hgs
                  refine ⟨[⟨exported, s, none⟩], lg, ?_, by simp [hgs, exportKey], ?_⟩
                  · intro m hm
                    show (match getSource env srcFile localName with
                        | (.ok s2, r) =>
                          ((.ok [⟨exported, s2, none⟩] : Except JErr (List Export)), r)
                        | (.error e, r) => ((.error e : Except JErr (List Export)), r)) =
                      (.ok [⟨exported, s, none⟩], lg)
                    rw [hgs]
                  · intro e hee
                    simp only [List.mem_singleton] at hee
                    subst hee
                    simpa [hsfile] using hsome
              | none =>
                refine ⟨_, [], fun _ _ => rfl, by simp [exportKey], ?_⟩
                intro e hee
                simp only [List.mem_singleton] at hee
                subst hee
                simp [henv]
            | defaultDecl p =>
              refine ⟨_, [], fun _ _ => rfl, by simp [exportKey], ?_⟩
              intro e hee
              simp only [List.mem_singleton] at hee
              subst hee
              simp [henv]
          obtain ⟨es, reads1, hheadeq, hkeys1, hinv1⟩ := hhead
          refine ⟨es ++ flat2, reads1 ++ reads2, ?_, ?_, ?_⟩
          · intro m hm
            show (match (match c with
                 | .exportAll target =>
                   (match parse env m target with
                    | (.ok nested, r) => ((.ok nested.exports : Except JErr (List Export)), r)
                    | (.error e, r) => (.error e, r))
                 | .namedDecl nm p =>
                   ((.ok [⟨nm, ⟨file, nm, p⟩, none⟩] : Except JErr (List Export)), [])
                 | .specifier exported localName (some src) _ =>
                   (match getSource env src localName with
                    | (.ok s, r) => ((.ok [⟨exported, s, none⟩] : Except JErr (List Export)), r)
                    | (.error e, r) => (.error e, r))
                 | .specifier exported localName none pos =>
                   ((.ok [⟨exported, ⟨file, localName, pos⟩, none⟩] :
                      Except JErr (List Export)), [])
                 | .defaultDecl p =>
                   ((.ok [⟨"default", ⟨file, "default", p⟩, none⟩] :
                      Except JErr (List Export)), [])) with
               | (.error e, r) => ((.error e : Except JErr (List Export)), r)
               | (.ok es, r) =>
                 match collectConstructs env (parse env m) file rest with
                 | (.ok es2, r2) => ((.ok (es ++ es2) : Except JErr (List Export)), r ++ r2)
                 | (.error e, r2) => (.error e, r ++ r2)) = (.ok (es ++ flat2), reads1 ++ reads2)
            rw [hheadeq m hm, hrest m hm]
          · rw [List.flatMap_cons, List.map_append, hkeys1, hkeys2]
            rcases c with target | ⟨nm, p⟩ | ⟨exported, localName, src, pos⟩ | p
            · rfl
            · rfl
            · rcases src with _ | srcFile <;> rfl
            · rfl
          · intro e hee
            rcases List.mem_append.mp hee with h | h
            · exact hinv1 e h
            · exact hinv2 e h
      obtain ⟨flat, reads, hcoll, hkeys, hinv⟩ :=
        hcollect mod.constructs (fun _ hx => hx)
      have hfiltinv : ∀ e ∈ getExportFilterRun file flat,
          (env.files e.source.file).isSome = true := by
        intro e hee
        exact hinv e ((filterWithIndexAux_sublist _ flat 0).mem hee)
      obtain ⟨docs, r2, hattach, hdockeys⟩ :=
        attachDocs_ok env file (getExportFilterRun file flat) hfiltinv
      refine ⟨⟨basenameNoExt file, file, docs⟩, file :: (reads ++ r2), ?_, ?_, ?_⟩
      · intro m hm
        rcases m with _ | m2
        · omega
        · have hc2 := hcoll m2 (by omega)
          show parseStep env (parse env m2) file = _
          simp only [parseStep, henv, hc2, hattach]
      · show docs.map exportKey = _
        rw [hdockeys, getExportFilterRun_keys, hkeys, horder]
      · intro e hee
        show (env.files e.source.file).isSome = true
        have : exportKey e ∈ docs.map exportKey := List.mem_map_of_mem _ hee
        rw [hdockeys] at this
        obtain ⟨e2, he2, hke⟩ := List.mem_map.mp this
        have : e2.source.file = e.source.file := by
          have := congrArg (fun k => k.2.file) hke
          simpa [exportKey] using this
        rw [← this]
        exact hfiltinv e2 he2

/-- C7: for a well-formed (acyclic and closed) export graph, `parse`
terminates successfully with a fuel-independent descriptor whose exports
are exactly the collision-filtered inline order — the bindings in the
order their export constructs appear in the entry module with each
re-export-all expansion inlined at its point of occurrence — and in
particular an order-preserving sublist of that inline order. -/
theorem c7_resolution_order (env : Env) (n : Nat) (file : String)
    (hwf : wfb env n file = true) :
    ∃ cli,
      (∀ m, n ≤ m → (parse env m file).1 = .ok cli)
      ∧ cli.exports.map exportKey = filterKeysRun file (resolveOrderKeys env n file)
      ∧ (cli.exports.map exportKey).Sublist (resolveOrderKeys env n file) := by
  obtain ⟨cli, reads, hstab, hkeys, _⟩ := parse_wfb n env file hwf
  refine ⟨cli, ?_, hkeys, ?_⟩
  · intro m hm
    rw [hstab m hm]
  · rw [hkeys]
    exact filterWithIndexAux_sublist _ (resolveOrderKeys env n file) 0

/-- Witness for the resolution-order theorem on a concrete two-module
environment with a local export, a re-export-all and a default export. -/
theorem c7_resolution_order_witness :
    wfb envOrder 2 "/e" = true ∧
    ∃ cli,
      (∀ m, 2 ≤ m → (parse envOrder m "/e").1 = .ok cli)
      ∧ cli.exports.map exportKey = filterKeysRun "/e" (resolveOrderKeys envOrder 2 "/e")
      ∧ (cli.exports.map exportKey).Sublist (resolveOrderKeys envOrder 2 "/e") :=
  ⟨by decide, c7_resolution_order envOrder 2 "/e" (by decide)⟩

end CliFromJsdoc
